import Mathlib

/-!
# Verification of the lock-free linked list (15618-Final-Project)

Shallow embedding of `src/lock_free_list.h` (hazard-pointer variant, the one
at lines 1350-1532, whose list algorithm is identical to the variant at lines
553-804) together with the tagged-pointer utilities of the variant at lines
41-58, the hazard-pointer registry (`acquire_hp_rec`, lines 1164-1176), and
the retirement scan (`retire_node`, lines 426-443).

The list algorithm is embedded as a sequential (single-thread, atomic-step)
semantics over an explicit heap of nodes: node ids are 1-based indices into a
list of `Node` records, id `0` plays the role of `nullptr`.  Loops are given
explicit fuel and return `Option` results (`none` = fuel exhausted); the
concurrency-only validation branches of the source (`goto retry` after a
hazard re-read, mark-CAS failure, link-CAS failure) are kept in the
definitions even though a sequential execution never takes them.
-/

namespace LFL

/-- A heap node, mirroring `LockFreeNode<KeyType>` (key, next, marked,
deleted); `next = 0` models `nullptr`. -/
structure Node where
  key : Int
  next : Nat
  marked : Bool
  deleted : Bool
  deriving Repr, DecidableEq

instance : Inhabited Node := ⟨⟨0, 0, false, false⟩⟩

/-- The shared state of one `LockFreeList`: the node heap (id `i` lives at
list index `i - 1`) and the ids of the two sentinels. -/
structure LFState where
  nodes : List Node
  head : Nat
  tail : Nat
  deriving Repr, DecidableEq

/-- Dereference a node id (atomic load of the whole record).  Id `0` is
`nullptr`; dereferencing it yields junk (the sequential executions we verify
never do). -/
def getNode (s : LFState) (i : Nat) : Node :=
  if i = 0 then default else s.nodes.getD (i - 1) default

/-- Store a new `next` value into node `i` (the write half of a successful
CAS on a `next` field). -/
def setNext (s : LFState) (i v : Nat) : LFState :=
  { s with nodes := s.nodes.set (i - 1) { s.nodes.getD (i - 1) default with next := v } }

/-- Store a new `marked` value into node `i` (the write half of a successful
CAS on the `marked` flag). -/
def setMarked (s : LFState) (i : Nat) (b : Bool) : LFState :=
  { s with nodes := s.nodes.set (i - 1) { s.nodes.getD (i - 1) default with marked := b } }

/-- `new LockFreeNode<KeyType>(key)`: append a fresh node (`next = nullptr`,
`marked = false`, `deleted = false`) and return its id. -/
def allocNode (s : LFState) (k : Int) : LFState × Nat :=
  ({ s with nodes := s.nodes ++ [{ key := k, next := 0, marked := false, deleted := false }] },
   s.nodes.length + 1)

/-- The `LockFreeList()` constructor: head sentinel (id 1) with
default-constructed key pointing at the tail sentinel (id 2). -/
def initList : LFState :=
  { nodes := [{ key := 0, next := 2, marked := false, deleted := false },
              { key := 0, next := 0, marked := false, deleted := false }],
    head := 1, tail := 2 }

/-! ## The `search` walk (lines 1350-1441) -/

/-- Result of the walk phase of `search`: either a `goto retry` (a hazard
validation failed) or the `left`/`left_node_next`/`right` triple. -/
inductive WalkRes where
  | retry : WalkRes
  | found : Nat → Nat → Nat → WalkRes
  deriving Repr, DecidableEq

/-- The do-while walk of `search` (lines 1371-1412).  Arguments `t`/`tnext`
are the two cursors, `left`/`leftNext` the tentative result pair.  One fuel
unit per loop iteration. -/
def searchLoop (s : LFState) (key : Int) :
    Nat → Nat → Nat → Nat → Nat → Option WalkRes
  | 0, _, _, _, _ => none
  | fuel + 1, t, tnext, left, leftNext =>
    -- body: if `t` is unmarked, record it as the tentative left node
    -- (line 1376); the hazard re-validation `if (t->is_deleted()) goto retry`
    -- (line 1380) is kept
    if !(getNode s t).marked && (getNode s t).deleted then some .retry
    else
      let left' := if !(getNode s t).marked then t else left
      let leftNext' := if !(getNode s t).marked then tnext else leftNext
      -- `t = t_next; if (t == tail) break;` (lines 1388-1391)
      let t' := tnext
      if t' = s.tail then some (.found left' leftNext' t')
      else
        -- `t_next = t->next.load()` plus the publish-and-revalidate check
        -- (lines 1394-1400)
        let tnext' := (getNode s t').next
        if (getNode s t').next ≠ tnext' ∨ (getNode s t').deleted = true ∨
            (getNode s tnext').deleted = true then some .retry
        else if (getNode s t').marked = true ∨ (getNode s t').key < key then
          searchLoop s key fuel t' tnext' left' leftNext'
        else some (.found left' leftNext' t')

/-- The outer retry loop of `search` (lines 1354-1441): run the walk, then
either return the adjacent pair, or snip out the run of marked nodes with a
CAS on `left->next` and re-check, restarting on interference.  Returns the
(possibly snipped) state together with `left` and `right`. -/
def searchRec (s : LFState) (key : Int) : Nat → Option (LFState × Nat × Nat)
  | 0 => none
  | fuel + 1 =>
    -- top of the loop: t = head, t_next = head->next, publish and revalidate
    -- (lines 1362-1368)
    let t := s.head
    let tnext := (getNode s t).next
    if (getNode s t).next ≠ tnext ∨ (getNode s t).deleted = true ∨
        (getNode s tnext).deleted = true then searchRec s key fuel
    else
      match searchLoop s key (s.nodes.length + 1) t tnext t tnext with
      | none => none
      | some .retry => searchRec s key fuel
      | some (.found left leftNext right) =>
        -- 2. adjacency check (lines 1417-1426)
        if leftNext = right then
          if right ≠ s.tail ∧ (getNode s right).marked = true then searchRec s key fuel
          else some (s, left, right)
        else
          -- 3. snip CAS (lines 1432-1439)
          if (getNode s left).next = leftNext then
            let s' := setNext s left right
            if right ≠ s'.tail ∧ (getNode s' right).marked = true then searchRec s' key fuel
            else some (s', left, right)
          else searchRec s key fuel

/-- `search` with its default fuel (a sequential call returns within one
outer iteration and at most `|nodes|` walk steps). -/
def searchOp (s : LFState) (key : Int) : Option (LFState × Nat × Nat) :=
  searchRec s key (s.nodes.length + 1)

/-! ## `insert` (lines 1450-1473) -/

/-- The retry loop of `insert`: search, return `false` on a duplicate key
(without deallocating the new node - the `delete new_node` of the paper is
absent from the source, only a `TODO` comment remains in the untagged
variants), otherwise link the new node in with a CAS on `left->next`. -/
def insertLoop (s : LFState) (key : Int) (newIdx : Nat) :
    Nat → Option (LFState × Bool)
  | 0 => none
  | fuel + 1 =>
    match searchOp s key with
    | none => none
    | some (s1, left, right) =>
      if right ≠ s1.tail ∧ (getNode s1 right).key = key then some (s1, false)
      else
        -- `new_node->next.store(right_node)` (line 1463)
        let s2 := setNext s1 newIdx right
        -- `left_node->next.compare_exchange_strong(right_node, new_node)`
        if (getNode s2 left).next = right then some (setNext s2 left newIdx, true)
        else insertLoop s2 key newIdx fuel

/-- `insert(key)`: allocate the node, then run the retry loop. -/
def insert (s : LFState) (key : Int) : Option (LFState × Bool) :=
  let (s1, newIdx) := allocNode s key
  insertLoop s1 key newIdx (s.nodes.length + 2)

/-! ## `remove` (lines 1483-1518) -/

/-- The retry loop of `remove`: search; return `false` if the key is absent;
otherwise snapshot `right->next`, revalidate it (lines 1495-1500), and try
the logical-deletion CAS on `marked`; `break` out on success carrying the
snapshot. -/
def removeLoop (s : LFState) (key : Int) :
    Nat → Option (LFState × Nat × Nat × Nat × Bool)
  | 0 => none
  | fuel + 1 =>
    match searchOp s key with
    | none => none
    | some (s1, left, right) =>
      if right = s1.tail ∨ (getNode s1 right).key ≠ key then
        some (s1, left, right, 0, false)
      else
        let rnext := (getNode s1 right).next
        if (getNode s1 right).next ≠ rnext ∨ (getNode s1 right).deleted = true then
          removeLoop s1 key fuel
        else if (getNode s1 right).marked = false then
          some (setMarked s1 right true, left, right, rnext, true)
        else removeLoop s1 key fuel

/-- `remove(search_key)`: run the retry loop; after a successful mark,
physically unlink with a CAS on `left->next` (failure is benign, line 1510)
and return `true`. -/
def remove (s : LFState) (key : Int) : Option (LFState × Bool) :=
  match removeLoop s key (s.nodes.length + 2) with
  | none => none
  | some (s1, _, _, _, false) => some (s1, false)
  | some (s1, left, right, rnext, true) =>
    if (getNode s1 left).next = right then some (setNext s1 left rnext, true)
    else some (s1, true)

/-! ## `find` (lines 1527-1532) -/

/-- `find(search_key)`: search and report whether `right` is a non-sentinel
node carrying the key. -/
def find (s : LFState) (key : Int) : Option (LFState × Bool) :=
  match searchOp s key with
  | none => none
  | some (s1, _, right) =>
    some (s1, decide (right ≠ s1.tail ∧ (getNode s1 right).key = key))

/-! ## Observations: walking the chain -/

/-- Walk the `next` chain from node `i` until `tail`, collecting the ids of
the nodes strictly between `i`'s predecessor and `tail` (the quiescent
iteration pattern `front()`/`next()` of the test driver). -/
def chainFrom (s : LFState) : Nat → Nat → Option (List Nat)
  | 0, _ => none
  | fuel + 1, i =>
    if i = s.tail then some []
    else
      match chainFrom s fuel (getNode s i).next with
      | none => none
      | some l => some (i :: l)

/-- The ids of the nodes on the chain from `HEAD` (exclusive) to `TAIL`
(exclusive). -/
def chainIds (s : LFState) : Option (List Nat) :=
  chainFrom s (s.nodes.length + 1) (getNode s s.head).next

/-- The keys of the live (unmarked, reachable) nodes, in chain order. -/
def liveKeysD (s : LFState) : List Int :=
  match chainIds s with
  | some l => (l.filter fun i => !(getNode s i).marked).map fun i => (getNode s i).key
  | none => []

/-- `k` is the key of a live (unmarked, reachable) node. -/
def liveMem (s : LFState) (k : Int) : Prop := k ∈ liveKeysD s

instance (s : LFState) (k : Int) : Decidable (liveMem s k) := by
  unfold liveMem; infer_instance

/-! ## Operation sequences -/

/-- One client operation. -/
inductive Op where
  | ins : Int → Op
  | rem : Int → Op
  | fnd : Int → Op
  deriving Repr, DecidableEq

/-- Execute one operation for its state effect. -/
def runOp (s : LFState) : Op → Option LFState
  | .ins k => (insert s k).map Prod.fst
  | .rem k => (remove s k).map Prod.fst
  | .fnd k => (find s k).map Prod.fst

/-- Execute a finite sequence of operations starting from a freshly
constructed list. -/
def runOps (ops : List Op) : Option LFState :=
  ops.foldlM runOp initList

end LFL

/-! ## Tagged-pointer utilities (variant at lines 19-58) -/

namespace Tagged

/-- `#define TAG_BITS 3` (line 19). -/
def TAG_BITS : Nat := 3

/-- Width of `uintptr_t` on the target platform. -/
def PTR_BITS : Nat := 64

/-- `pack_ptr_with_tag` (lines 41-46):
`(raw_ptr & ~((1 << TAG_BITS) - 1)) | (tag & ((1 << TAG_BITS) - 1))`,
with `~mask` on a 64-bit `uintptr_t` embedded as `2^64 - 2^TAG_BITS`. -/
def pack_ptr_with_tag (p t : Nat) : Nat :=
  (p &&& (2 ^ PTR_BITS - 2 ^ TAG_BITS)) ||| (t &&& (2 ^ TAG_BITS - 1))

/-- `unpack_pointer` (lines 48-52): `raw_ptr & ~((1 << TAG_BITS) - 1)`. -/
def unpack_pointer (p : Nat) : Nat :=
  p &&& (2 ^ PTR_BITS - 2 ^ TAG_BITS)

/-- `unpack_tag` (lines 54-58): `raw_ptr & ((1 << TAG_BITS) - 1)`. -/
def unpack_tag (p : Nat) : Nat :=
  p &&& (2 ^ TAG_BITS - 1)

/-- A sequential compare-and-swap on a packed link word: succeeds iff the
current value equals the expected value bit-for-bit, in which case the
desired value is stored. -/
def casLink (cur exp des : Nat) : Bool × Nat :=
  if cur = exp then (true, des) else (false, cur)

/-- The (expected, desired) pair of the insert link-in CAS (lines 241-250):
`right_node_packed = pack(right_node, unpack_tag(right_node) + 1)` and
`new_node_packed = pack(new_node, unpack_tag(right_node) + 1)`. -/
def insertCASArgs (right_node new_node : Nat) : Nat × Nat :=
  (pack_ptr_with_tag right_node (unpack_tag right_node + 1),
   pack_ptr_with_tag new_node (unpack_tag right_node + 1))

/-- The (expected, desired) pair of the remove physical-unlink CAS
(line 298): `compare_exchange_strong(right_node, right_node_next)` - the
raw snapshot is stored, not the retagged `desired_packed`. -/
def removeCASArgs (right_node right_node_next : Nat) : Nat × Nat :=
  (right_node, right_node_next)

/-- The `desired_packed` value that `remove` computes on line 290 and then
never passes to the CAS:
`pack(unpack_pointer(right_node_next), unpack_tag(right_node) + 1)`. -/
def remove_desired_packed (right_node right_node_next : Nat) : Nat :=
  pack_ptr_with_tag (unpack_pointer right_node_next) (unpack_tag right_node + 1)

/-- The (expected, desired) pair of the search snip CAS (lines 195-198):
`left_node_next_packed = pack(left_node_next, unpack_tag(t_next_packed))`,
`new_right_node = pack(right_node, unpack_tag(left_node_next_packed) + 1)`. -/
def snipCASArgs (left_node_next t_next_packed right_node : Nat) : Nat × Nat :=
  (pack_ptr_with_tag left_node_next (unpack_tag t_next_packed),
   pack_ptr_with_tag right_node
     (unpack_tag (pack_ptr_with_tag left_node_next (unpack_tag t_next_packed)) + 1))

end Tagged

/-! ## Hazard-pointer registry (lines 1142-1238) -/

namespace HP

/-- `MAX_THREADS` of the final hazard-pointer variant (line 1144). -/
def MAX_THREADS : Nat := 256

/-- `HP_PER_THREAD` of the final hazard-pointer variant (line 1145). -/
def HP_PER_THREAD : Nat := 5

/-- One `HPRec`: the owning thread id (`none` models the default-constructed
`thread::id()`) and the hazard slots. -/
structure HPRec where
  tid : Option Nat
  hp : List (Option Nat)
  deriving Repr, DecidableEq

/-- `acquire_hp_rec` (lines 1164-1176), sequential semantics: scan the
records in order; claim the first empty record with a CAS, or return the
record already owned by the calling thread; `none` models the
`throw runtime_error` when the registry is exhausted.  Returns the index of
the record and the updated registry. -/
def acquire_hp_rec (tid : Nat) : List HPRec → Option (Nat × List HPRec)
  | [] => none
  | r :: rs =>
    if r.tid = none then some (0, { r with tid := some tid } :: rs)
    else if r.tid = some tid then some (0, r :: rs)
    else (acquire_hp_rec tid rs).map fun p => (p.1 + 1, r :: p.2)

/-- `is_protected` (lines 1195-1207): some record with a non-empty owner has
a slot naming `ptr`. -/
def is_protected (recs : List HPRec) (ptr : Nat) : Bool :=
  recs.any fun r => r.tid ≠ none && r.hp.any fun h => h = some ptr

/-- The per-thread reclamation state: the private pending list, the
addresses passed to `delete` so far (in order), and the addresses whose
`deleted` flag has been stored `true`. -/
structure RetireState where
  pending : List Nat
  freed : List Nat
  deletedSet : List Nat
  deriving Repr, DecidableEq

/-- The scan loop inside `retire_node` (lines 431-442): partition the
pending list; unprotected nodes get their `deleted` flag set and are freed,
protected nodes survive into the new pending list.  Returns
(new pending list, nodes freed by this scan). -/
def scanPending (recs : List HPRec) : List Nat → List Nat × List Nat
  | [] => ([], [])
  | n :: rest =>
    let (p, f) := scanPending recs rest
    if is_protected recs n then (n :: p, f) else (p, n :: f)

/-- `retire_node` (lines 426-443): append the pointer to the caller's
pending list, then scan it against the registry. -/
def retire_node (recs : List HPRec) (st : RetireState) (ptr : Nat) : RetireState :=
  let pending := st.pending ++ [ptr]
  let (p, f) := scanPending recs pending
  { pending := p, freed := st.freed ++ f, deletedSet := st.deletedSet ++ f }

/-- A whole sequence of `retire_node` calls by one thread. -/
def runRetires (recs : List HPRec) (st : RetireState) : List Nat → RetireState
  | [] => st
  | p :: ps => runRetires recs (retire_node recs st p) ps

end HP

/-! ## Basic facts about the heap embedding -/

namespace LFL

theorem head_setNext (s : LFState) (i v : Nat) : (setNext s i v).head = s.head := rfl

theorem tail_setNext (s : LFState) (i v : Nat) : (setNext s i v).tail = s.tail := rfl

theorem length_setNext (s : LFState) (i v : Nat) :
    (setNext s i v).nodes.length = s.nodes.length := by
  simp [setNext]

theorem head_setMarked (s : LFState) (i : Nat) (b : Bool) :
    (setMarked s i b).head = s.head := rfl

theorem tail_setMarked (s : LFState) (i : Nat) (b : Bool) :
    (setMarked s i b).tail = s.tail := rfl

theorem length_setMarked (s : LFState) (i : Nat) (b : Bool) :
    (setMarked s i b).nodes.length = s.nodes.length := by
  simp [setMarked]

theorem head_alloc (s : LFState) (k : Int) : (allocNode s k).1.head = s.head := rfl

theorem tail_alloc (s : LFState) (k : Int) : (allocNode s k).1.tail = s.tail := rfl

theorem length_alloc (s : LFState) (k : Int) :
    (allocNode s k).1.nodes.length = s.nodes.length + 1 := by
  simp [allocNode]

theorem getNode_setNext_self (s : LFState) {i : Nat} (v : Nat)
    (h1 : 1 ≤ i) (h2 : i ≤ s.nodes.length) :
    getNode (setNext s i v) i = { getNode s i with next := v } := by
  have hi : i ≠ 0 := by omega
  have hlt : i - 1 < s.nodes.length := by omega
  simp [getNode, setNext, hi, List.getD_eq_getElem?_getD, List.getElem?_set_self hlt]

theorem getNode_setNext_ne (s : LFState) {i j : Nat} (v : Nat)
    (h1 : 1 ≤ i) (hne : j ≠ i) :
    getNode (setNext s i v) j = getNode s j := by
  rcases Nat.eq_zero_or_pos j with hj | hj
  · simp [getNode, hj]
  · have hj0 : j ≠ 0 := by omega
    have hidx : i - 1 ≠ j - 1 := by omega
    simp [getNode, setNext, hj0, List.getD_eq_getElem?_getD, List.getElem?_set_ne hidx]

theorem getNode_setMarked_self (s : LFState) {i : Nat} (b : Bool)
    (h1 : 1 ≤ i) (h2 : i ≤ s.nodes.length) :
    getNode (setMarked s i b) i = { getNode s i with marked := b } := by
  have hi : i ≠ 0 := by omega
  have hlt : i - 1 < s.nodes.length := by omega
  simp [getNode, setMarked, hi, List.getD_eq_getElem?_getD, List.getElem?_set_self hlt]

theorem getNode_setMarked_ne (s : LFState) {i j : Nat} (b : Bool)
    (h1 : 1 ≤ i) (hne : j ≠ i) :
    getNode (setMarked s i b) j = getNode s j := by
  rcases Nat.eq_zero_or_pos j with hj | hj
  · simp [getNode, hj]
  · have hj0 : j ≠ 0 := by omega
    have hidx : i - 1 ≠ j - 1 := by omega
    simp [getNode, setMarked, hj0, List.getD_eq_getElem?_getD, List.getElem?_set_ne hidx]

theorem getNode_alloc_le (s : LFState) (k : Int) {i : Nat} (h : i ≤ s.nodes.length) :
    getNode (allocNode s k).1 i = getNode s i := by
  rcases Nat.eq_zero_or_pos i with hi | hi
  · simp [getNode, hi]
  · have hi0 : i ≠ 0 := by omega
    have hlt : i - 1 < s.nodes.length := by omega
    simp [getNode, allocNode, hi0, List.getD_eq_getElem?_getD, List.getElem?_append_left hlt]

theorem getNode_alloc_new (s : LFState) (k : Int) :
    getNode (allocNode s k).1 (s.nodes.length + 1) =
      { key := k, next := 0, marked := false, deleted := false } := by
  simp [getNode, allocNode, List.getD_eq_getElem?_getD, List.getElem?_concat_length]

/-! ## Chains through the heap -/

/-- `path s i l j`: starting at node `i`, following `next` pointers visits
exactly the nodes of `l` in order and then lands on `j`. -/
def path (s : LFState) : Nat → List Nat → Nat → Prop
  | i, [], j => (getNode s i).next = j
  | i, x :: xs, j => (getNode s i).next = x ∧ path s x xs j

theorem path_congr {s s' : LFState} {i : Nat} {l : List Nat} {j : Nat}
    (hp : path s i l j) (hsame : ∀ a ∈ i :: l, getNode s' a = getNode s a) :
    path s' i l j := by
  induction l generalizing i with
  | nil =>
    simpa [path, hsame i (by simp)] using hp
  | cons x xs ih =>
    obtain ⟨h1, h2⟩ := hp
    refine ⟨?_, ih h2 fun a ha => hsame a (by simpa using Or.inr ha)⟩
    rw [hsame i (by simp)]; exact h1

theorem path_append {s : LFState} {i x j : Nat} {l₁ l₂ : List Nat} :
    path s i (l₁ ++ x :: l₂) j ↔ path s i l₁ x ∧ path s x l₂ j := by
  induction l₁ generalizing i with
  | nil => simp [path]
  | cons y ys ih => simp [path, ih, and_assoc]

/-- The last element of `l`, defaulting to `i`: the node whose `next` field
terminates the path `i :: l`. -/
def lastN (i : Nat) (l : List Nat) : Nat := l.getLastD i

theorem lastN_nil (i : Nat) : lastN i [] = i := rfl

theorem lastN_cons (i x : Nat) (l : List Nat) : lastN i (x :: l) = lastN x l :=
  List.getLastD_cons _ _ _

theorem lastN_mem (i : Nat) (l : List Nat) : lastN i l ∈ i :: l := by
  induction l generalizing i with
  | nil => simp [lastN]
  | cons x xs ih =>
    rw [lastN_cons]
    rcases (by simpa using ih x) with h | h
    · simp [h]
    · simp [h]

theorem path_last_next {s : LFState} {i j : Nat} {l : List Nat}
    (hp : path s i l j) : (getNode s (lastN i l)).next = j := by
  induction l generalizing i with
  | nil => simpa [lastN] using hp
  | cons x xs ih => rw [lastN_cons]; exact ih hp.2

/-- Redirecting the `next` field of the last node of a path retargets the
path, provided the other nodes are untouched. -/
theorem path_retarget {s s' : LFState} {i j j' : Nat} {l : List Nat}
    (hp : path s i l j) (hnd : (i :: l).Nodup)
    (hsame : ∀ a ∈ i :: l, a ≠ lastN i l → getNode s' a = getNode s a)
    (hlast : (getNode s' (lastN i l)).next = j') :
    path s' i l j' := by
  induction l generalizing i with
  | nil => simpa [lastN] using hlast
  | cons x xs ih =>
    obtain ⟨h1, h2⟩ := hp
    have hlx : lastN i (x :: xs) = lastN x xs := lastN_cons i x xs
    have hnd1 : i ∉ x :: xs := (List.nodup_cons.mp hnd).1
    have hnd2 : (x :: xs).Nodup := (List.nodup_cons.mp hnd).2
    have hine : i ≠ lastN x xs := fun hcon => hnd1 (hcon ▸ lastN_mem x xs)
    refine ⟨?_, ?_⟩
    · rw [hsame i (by simp) (by rw [hlx]; exact hine)]; exact h1
    · exact ih h2 hnd2
        (fun a ha hne => hsame a (by simpa using Or.inr (by simpa using ha))
          (by rw [hlx]; exact hne))
        (by rw [← hlx]; exact hlast)

/-! ## The specification of the walk -/

/-- What the walk of `search` computes on a chain with no marked nodes:
starting with tentative left node `t`, scan the chain `l`; the result is the
final (left, right) pair. -/
def walkSpec (s : LFState) (k : Int) : Nat → List Nat → Nat × Nat
  | t, [] => (t, s.tail)
  | t, x :: xs => if (getNode s x).key < k then walkSpec s k x xs else (t, x)

/-- Characterization of `walkSpec` by `takeWhile`/`dropWhile`. -/
theorem walkSpec_eq (s : LFState) (k : Int) (t : Nat) (l : List Nat) :
    walkSpec s k t l =
      (lastN t (l.takeWhile fun i => decide ((getNode s i).key < k)),
       ((l.dropWhile fun i => decide ((getNode s i).key < k)).headD s.tail)) := by
  induction l generalizing t with
  | nil => simp [walkSpec, lastN]
  | cons x xs ih =>
    by_cases hx : (getNode s x).key < k
    · simp [walkSpec, hx, List.takeWhile_cons, List.dropWhile_cons, ih x, lastN_cons]
    · simp [walkSpec, hx, List.takeWhile_cons, List.dropWhile_cons, lastN]

theorem walkSpec_fst_eq_or (s : LFState) (k : Int) (t : Nat) (l : List Nat) :
    (walkSpec s k t l).1 = t ∨
      ((walkSpec s k t l).1 ∈ l ∧ (getNode s (walkSpec s k t l).1).key < k) := by
  induction l generalizing t with
  | nil => simp [walkSpec]
  | cons x xs ih =>
    by_cases hx : (getNode s x).key < k
    · rw [walkSpec, if_pos hx]
      rcases ih x with h | h
      · exact Or.inr ⟨by simp [h], by rwa [h]⟩
      · exact Or.inr ⟨by simp [h.1], h.2⟩
    · simp [walkSpec, hx]

theorem walkSpec_snd_eq_or (s : LFState) (k : Int) (t : Nat) (l : List Nat) :
    (walkSpec s k t l).2 = s.tail ∨
      ((walkSpec s k t l).2 ∈ l ∧ k ≤ (getNode s (walkSpec s k t l).2).key) := by
  induction l generalizing t with
  | nil => simp [walkSpec]
  | cons x xs ih =>
    by_cases hx : (getNode s x).key < k
    · rw [walkSpec, if_pos hx]
      rcases ih x with h | h
      · exact Or.inl h
      · exact Or.inr ⟨by simp [h.1], h.2⟩
    · rw [walkSpec, if_neg hx]
      refine Or.inr ⟨by simp, ?_⟩
      have hsnd : ((t, x) : Nat × Nat).2 = x := rfl
      rw [hsnd]
      omega

theorem walkSpec_adj {s : LFState} {k : Int} {t : Nat} {l : List Nat}
    (hp : path s t l s.tail) :
    (getNode s (walkSpec s k t l).1).next = (walkSpec s k t l).2 := by
  induction l generalizing t with
  | nil => simpa [walkSpec] using hp
  | cons x xs ih =>
    by_cases hx : (getNode s x).key < k
    · rw [walkSpec, if_pos hx]; exact ih hp.2
    · rw [walkSpec, if_neg hx]; exact hp.1

/-! ## The sequential list invariant -/

/-- States reachable by sequences of completed operations: `mids` is the
list of ids of the non-sentinel nodes reachable from `HEAD`, in order.  All
reachable non-sentinel nodes are unmarked, not yet reclaimed, and carry
strictly increasing keys. -/
structure okState (s : LFState) (mids : List Nat) : Prop where
  hhead : s.head = 1
  htail : s.tail = 2
  hlen : 2 ≤ s.nodes.length
  hmidlen : mids.length + 1 ≤ s.nodes.length
  hpath : path s s.head mids s.tail
  hvalid : ∀ i ∈ mids, 3 ≤ i ∧ i ≤ s.nodes.length
  hnodup : mids.Nodup
  hclean : ∀ i ∈ mids, (getNode s i).marked = false ∧ (getNode s i).deleted = false
  hsorted : List.Pairwise (· < ·) (mids.map fun i => (getNode s i).key)
  hheadok : (getNode s s.head).marked = false ∧ (getNode s s.head).deleted = false
  htailok : (getNode s s.tail).marked = false ∧ (getNode s s.tail).deleted = false

theorem okState.mid_ne_head {s : LFState} {mids : List Nat} (h : okState s mids)
    {i : Nat} (hi : i ∈ mids) : i ≠ s.head := by
  have := h.hvalid i hi; rw [h.hhead]; omega

theorem okState.mid_ne_tail {s : LFState} {mids : List Nat} (h : okState s mids)
    {i : Nat} (hi : i ∈ mids) : i ≠ s.tail := by
  have := h.hvalid i hi; rw [h.htail]; omega

theorem okState.head_ne_tail {s : LFState} {mids : List Nat} (h : okState s mids) :
    s.head ≠ s.tail := by
  rw [h.hhead, h.htail]; omega

/-- The id right after the head sentinel is either the first real node or
the tail; either way its `deleted` flag is clear. -/
theorem okState.first_not_deleted {s : LFState} {mids : List Nat} (h : okState s mids) :
    (getNode s (getNode s s.head).next).deleted = false := by
  cases mids with
  | nil =>
    have : (getNode s s.head).next = s.tail := h.hpath
    rw [this]; exact h.htailok.2
  | cons m ms =>
    have : (getNode s s.head).next = m := h.hpath.1
    rw [this]; exact (h.hclean m (by simp)).2

/-! ## The walk computes `walkSpec` -/

theorem searchLoop_ok (s : LFState) (k : Int) :
    ∀ (l : List Nat) (t L LN fuel : Nat),
      l.length < fuel →
      path s t l s.tail →
      (getNode s t).marked = false →
      (getNode s t).deleted = false →
      (∀ i ∈ l, (getNode s i).marked = false ∧ (getNode s i).deleted = false ∧ i ≠ s.tail) →
      (getNode s s.tail).deleted = false →
      searchLoop s k fuel t ((getNode s t).next) L LN =
        some (.found (walkSpec s k t l).1 ((getNode s (walkSpec s k t l).1).next)
          (walkSpec s k t l).2) := by
  intro l
  induction l with
  | nil =>
    intro t L LN fuel hfuel hp hm htd _ _
    obtain ⟨f, rfl⟩ : ∃ f, fuel = f + 1 := ⟨fuel - 1, by omega⟩
    have htl : (getNode s t).next = s.tail := hp
    simp [searchLoop, hm, htd, htl, walkSpec]
  | cons x xs ih =>
    intro t L LN fuel hfuel hp hm htd hall htl
    obtain ⟨f, rfl⟩ : ∃ f, fuel = f + 1 := ⟨fuel - 1, by omega⟩
    obtain ⟨hnx, hpx⟩ := hp
    obtain ⟨hxm, hxd, hxt⟩ := hall x (by simp)
    have hxd2 : (getNode s (getNode s x).next).deleted = false := by
      cases xs with
      | nil => have : (getNode s x).next = s.tail := hpx; rw [this]; exact htl
      | cons y ys =>
        have : (getNode s x).next = y := hpx.1
        rw [this]; exact (hall y (by simp)).2.1
    by_cases hkey : (getNode s x).key < k
    · have hrec := ih x t x f (by simpa using hfuel) hpx hxm hxd
        (fun i hi => hall i (by simp [hi])) htl
      simp only [searchLoop, hnx]
      simp [hm, htd, hxt, hxm, hxd, hxd2, hkey, hrec, hnx, walkSpec]
    · simp only [searchLoop, hnx]
      simp [hm, htd, hxt, hxm, hxd, hxd2, hkey, hnx, walkSpec]

/-! ## `search` on a reachable state: one pass, no mutation -/

theorem searchOp_ok {s : LFState} {mids : List Nat} (h : okState s mids) (k : Int) :
    searchOp s k =
      some (s, (walkSpec s k s.head mids).1, (walkSpec s k s.head mids).2) := by
  have hwalk := searchLoop_ok s k mids s.head s.head ((getNode s s.head).next)
    (s.nodes.length + 1) (by have := h.hmidlen; omega) h.hpath h.hheadok.1 h.hheadok.2
    (fun i hi => ⟨(h.hclean i hi).1, (h.hclean i hi).2, h.mid_ne_tail hi⟩) h.htailok.2
  have hadj : (getNode s (walkSpec s k s.head mids).1).next =
      (walkSpec s k s.head mids).2 := walkSpec_adj h.hpath
  have hrmk : ¬((walkSpec s k s.head mids).2 ≠ s.tail ∧
      (getNode s (walkSpec s k s.head mids).2).marked = true) := by
    rcases walkSpec_snd_eq_or s k s.head mids with hr | hr
    · simp [hr]
    · simp [(h.hclean _ hr.1).1]
  unfold searchOp
  rw [searchRec]
  rw [if_neg (by simp [h.hheadok.2, h.first_not_deleted])]
  rw [hwalk]
  simp [hadj, hrmk]

/-! ## The executable chain walk -/

theorem chainFrom_of_path {s : LFState} :
    ∀ (l : List Nat) (i : Nat),
      path s i l s.tail → (∀ x ∈ l, x ≠ s.tail) →
      ∀ fuel, l.length < fuel →
      chainFrom s fuel (getNode s i).next = some l := by
  intro l
  induction l with
  | nil =>
    intro i hp _ fuel hfuel
    obtain ⟨f, rfl⟩ : ∃ f, fuel = f + 1 := ⟨fuel - 1, by omega⟩
    have : (getNode s i).next = s.tail := hp
    simp [chainFrom, this]
  | cons x xs ih =>
    intro i hp hne fuel hfuel
    obtain ⟨f, rfl⟩ : ∃ f, fuel = f + 1 := ⟨fuel - 1, by omega⟩
    have hnx : (getNode s i).next = x := hp.1
    have hrec := ih x hp.2 (fun y hy => hne y (by simp [hy])) f (by simpa using hfuel)
    rw [chainFrom, hnx, if_neg (hne x (by simp))]
    rw [hrec]

theorem chainIds_ok {s : LFState} {mids : List Nat} (h : okState s mids) :
    chainIds s = some mids := by
  unfold chainIds
  exact chainFrom_of_path mids s.head h.hpath (fun x hx => h.mid_ne_tail hx)
    (s.nodes.length + 1) (by have := h.hmidlen; omega)

theorem liveKeysD_ok {s : LFState} {mids : List Nat} (h : okState s mids) :
    liveKeysD s = mids.map fun i => (getNode s i).key := by
  have hf : mids.filter (fun i => !(getNode s i).marked) = mids :=
    List.filter_eq_self.mpr fun i hi => by simp [(h.hclean i hi).1]
  unfold liveKeysD
  rw [chainIds_ok h]
  simp [hf]

/-! ## Field preservation under heap updates -/

theorem getNode_setNext (s : LFState) {i : Nat} (v j : Nat) (hi : 1 ≤ i) :
    getNode (setNext s i v) j =
      if j = i ∧ i ≤ s.nodes.length then { getNode s j with next := v }
      else getNode s j := by
  by_cases hj : j = i
  · subst hj
    by_cases hle : j ≤ s.nodes.length
    · rw [if_pos ⟨rfl, hle⟩]
      exact getNode_setNext_self s v hi hle
    · rw [if_neg (by omega)]
      simp [getNode, setNext, List.set_eq_of_length_le (show s.nodes.length ≤ j - 1 by omega)]
  · rw [if_neg (by tauto)]
    exact getNode_setNext_ne s v hi hj

theorem getNode_setMarked (s : LFState) {i : Nat} (b : Bool) (j : Nat) (hi : 1 ≤ i) :
    getNode (setMarked s i b) j =
      if j = i ∧ i ≤ s.nodes.length then { getNode s j with marked := b }
      else getNode s j := by
  by_cases hj : j = i
  · subst hj
    by_cases hle : j ≤ s.nodes.length
    · rw [if_pos ⟨rfl, hle⟩]
      exact getNode_setMarked_self s b hi hle
    · rw [if_neg (by omega)]
      simp [getNode, setMarked, List.set_eq_of_length_le (show s.nodes.length ≤ j - 1 by omega)]
  · rw [if_neg (by tauto)]
    exact getNode_setMarked_ne s b hi hj

theorem key_setNext (s : LFState) {i : Nat} (v j : Nat) (hi : 1 ≤ i) :
    (getNode (setNext s i v) j).key = (getNode s j).key := by
  rw [getNode_setNext s v j hi]; split <;> rfl

theorem marked_setNext (s : LFState) {i : Nat} (v j : Nat) (hi : 1 ≤ i) :
    (getNode (setNext s i v) j).marked = (getNode s j).marked := by
  rw [getNode_setNext s v j hi]; split <;> rfl

theorem deleted_setNext (s : LFState) {i : Nat} (v j : Nat) (hi : 1 ≤ i) :
    (getNode (setNext s i v) j).deleted = (getNode s j).deleted := by
  rw [getNode_setNext s v j hi]; split <;> rfl

theorem key_setMarked (s : LFState) {i : Nat} (b : Bool) (j : Nat) (hi : 1 ≤ i) :
    (getNode (setMarked s i b) j).key = (getNode s j).key := by
  rw [getNode_setMarked s b j hi]; split <;> rfl

theorem next_setMarked (s : LFState) {i : Nat} (b : Bool) (j : Nat) (hi : 1 ≤ i) :
    (getNode (setMarked s i b) j).next = (getNode s j).next := by
  rw [getNode_setMarked s b j hi]; split <;> rfl

theorem deleted_setMarked (s : LFState) {i : Nat} (b : Bool) (j : Nat) (hi : 1 ≤ i) :
    (getNode (setMarked s i b) j).deleted = (getNode s j).deleted := by
  rw [getNode_setMarked s b j hi]; split <;> rfl

/-- `walkSpec` only looks at the nodes of `l` and the tail id. -/
theorem walkSpec_congr {s s' : LFState} {k : Int} {l : List Nat}
    (hsame : ∀ a ∈ l, getNode s' a = getNode s a) (htail : s'.tail = s.tail) :
    ∀ t, walkSpec s' k t l = walkSpec s k t l := by
  induction l with
  | nil => intro t; simp [walkSpec, htail]
  | cons x xs ih =>
    intro t
    rw [walkSpec, walkSpec, hsame x (by simp)]
    by_cases hx : (getNode s x).key < k
    · rw [if_pos hx, if_pos hx, ih fun a ha => hsame a (by simp [ha])]
    · rw [if_neg hx, if_neg hx]

/-- Allocating a fresh node preserves the invariant with the same chain. -/
theorem okState_alloc {s : LFState} {mids : List Nat} (h : okState s mids) (k : Int) :
    okState (allocNode s k).1 mids := by
  have hsame : ∀ a, a ≤ s.nodes.length → getNode (allocNode s k).1 a = getNode s a :=
    fun a ha => getNode_alloc_le s k ha
  have hhead2 : s.head ≤ s.nodes.length := by rw [h.hhead]; have := h.hlen; omega
  have htail2 : s.tail ≤ s.nodes.length := by rw [h.htail]; have := h.hlen; omega
  have hmid2 : ∀ a ∈ mids, a ≤ s.nodes.length := fun a ha => (h.hvalid a ha).2
  refine ⟨?_, ?_, ?_, ?_, ?_, ?_, h.hnodup, ?_, ?_, ?_, ?_⟩
  · rw [head_alloc]; exact h.hhead
  · rw [tail_alloc]; exact h.htail
  · rw [length_alloc]; have := h.hlen; omega
  · rw [length_alloc]; have := h.hmidlen; omega
  · rw [head_alloc, tail_alloc]
    exact path_congr h.hpath fun a ha => by
      rcases List.mem_cons.mp ha with ha | ha
      · rw [ha]; exact hsame _ hhead2
      · exact hsame _ (hmid2 a ha)
  · intro i hi
    rw [length_alloc]
    have := h.hvalid i hi; omega
  · intro i hi
    rw [hsame i (hmid2 i hi)]
    exact h.hclean i hi
  · have : (mids.map fun i => (getNode (allocNode s k).1 i).key) =
        mids.map fun i => (getNode s i).key :=
      List.map_congr_left fun i hi => by rw [hsame i (hmid2 i hi)]
    rw [this]; exact h.hsorted
  · rw [head_alloc, hsame _ hhead2]; exact h.hheadok
  · rw [tail_alloc, hsame _ htail2]; exact h.htailok

/-- Where the walk ends determines membership of `k` among the chain's keys. -/
theorem walkSpec_mem_iff {s : LFState} {k : Int} :
    ∀ (l : List Nat) (t : Nat),
      List.Pairwise (· < ·) (l.map fun i => (getNode s i).key) →
      (∀ i ∈ l, i ≠ s.tail) →
      ((k ∈ l.map fun i => (getNode s i).key) ↔
        ((walkSpec s k t l).2 ≠ s.tail ∧ (getNode s (walkSpec s k t l).2).key = k)) := by
  intro l
  induction l with
  | nil => intro t _ _; simp [walkSpec]
  | cons x xs ih =>
    intro t hs hne
    have hs2 : List.Pairwise (· < ·) (xs.map fun i => (getNode s i).key) :=
      (List.pairwise_cons.mp (by simpa using hs)).2
    have hxlt : ∀ b ∈ xs.map fun i => (getNode s i).key, (getNode s x).key < b :=
      (List.pairwise_cons.mp (by simpa using hs)).1
    by_cases hx : (getNode s x).key < k
    · rw [walkSpec, if_pos hx]
      rw [List.map_cons, List.mem_cons]
      rw [ih x hs2 fun i hi => hne i (by simp [hi])]
      constructor
      · rintro (hk | hk)
        · omega
        · exact hk
      · exact fun hk => Or.inr hk
    · rw [walkSpec, if_neg hx]
      have hsnd : ((t, x) : Nat × Nat).2 = x := rfl
      rw [hsnd, List.map_cons, List.mem_cons]
      constructor
      · rintro (hk | hk)
        · exact ⟨hne x (by simp), hk.symm⟩
        · exact absurd (hxlt k hk) (by omega)
      · rintro ⟨-, hk⟩
        exact Or.inl hk.symm

/-! ## Specification of `insert` on a reachable state -/

theorem insert_spec {s : LFState} {mids : List Nat} (h : okState s mids) (k : Int) :
    ∃ s' b mids', insert s k = some (s', b) ∧ okState s' mids' ∧
      (b = true ↔ k ∉ mids.map fun i => (getNode s i).key) ∧
      (∀ x : Int, (x ∈ mids'.map fun i => (getNode s' i).key) ↔
        ((x ∈ mids.map fun i => (getNode s i).key) ∨ x = k)) := by
  classical
  set P : Nat → Bool := fun i => decide ((getNode s i).key < k) with hP
  set lows := mids.takeWhile P with hlows
  set highs := mids.dropWhile P with hhighs
  have hsplit : lows ++ highs = mids := List.takeWhile_append_dropWhile P mids
  set L := lastN s.head lows with hLdef
  set R := highs.headD s.tail with hRdef
  have hwalk : walkSpec s k s.head mids = (L, R) := walkSpec_eq s k s.head mids
  set s1 := (allocNode s k).1 with hs1
  have h1 : okState s1 mids := okState_alloc h k
  set newIdx := s.nodes.length + 1 with hnew
  have hsame1 : ∀ a, a ≤ s.nodes.length → getNode s1 a = getNode s a := fun a ha =>
    getNode_alloc_le s k ha
  have hmidle : ∀ a ∈ mids, a ≤ s.nodes.length := fun a ha => (h.hvalid a ha).2
  have hmid3 : ∀ a ∈ mids, 3 ≤ a := fun a ha => (h.hvalid a ha).1
  have hheadle : s.head ≤ s.nodes.length := by rw [h.hhead]; have := h.hlen; omega
  have htaille : s.tail ≤ s.nodes.length := by rw [h.htail]; have := h.hlen; omega
  have hws : walkSpec s1 k s.head mids = (L, R) := by
    rw [walkSpec_congr (fun a ha => hsame1 a (hmidle a ha)) (tail_alloc s k), hwalk]
  have hsearch : searchOp s1 k = some (s1, L, R) := by
    have := searchOp_ok h1 k
    rw [head_alloc] at this
    rw [this, hws]
  -- basic facts about L and R
  have hlows_sub : lows ⊆ mids := (List.takeWhile_sublist P).subset
  have hhighs_sub : highs ⊆ mids := (List.dropWhile_sublist P).subset
  have hheadmem : s.head ∉ mids := fun hc => absurd (hmid3 _ hc) (by rw [h.hhead]; omega)
  have hLmem : L ∈ s.head :: lows := lastN_mem s.head lows
  have hLcases : L = s.head ∨ L ∈ mids := by
    rcases List.mem_cons.mp hLmem with hc | hc
    · exact Or.inl hc
    · exact Or.inr (hlows_sub hc)
  have hL1 : 1 ≤ L := by
    rcases hLcases with hc | hc
    · rw [hc, h.hhead]
    · have := hmid3 L hc; omega
  have hLle : L ≤ s.nodes.length := by
    rcases hLcases with hc | hc
    · rw [hc]; exact hheadle
    · exact hmidle L hc
  have hLnew : L ≠ newIdx := by omega
  have hRcases : (highs = [] ∧ R = s.tail) ∨ ∃ hh hs, highs = hh :: hs ∧ R = hh := by
    cases hhv : highs with
    | nil => exact Or.inl ⟨rfl, by rw [hRdef, hhv]; rfl⟩
    | cons hh hs => exact Or.inr ⟨hh, hs, rfl, by rw [hRdef, hhv]; rfl⟩
  have hadj : (getNode s L).next = R := by
    have := walkSpec_adj (k := k) h.hpath
    rwa [hwalk] at this
  have hdup_iff : ((R ≠ s1.tail ∧ (getNode s1 R).key = k)) ↔
      (k ∈ mids.map fun i => (getNode s i).key) := by
    rw [walkSpec_mem_iff mids s.head h.hsorted (fun i hi => h.mid_ne_tail hi), hwalk]
    rw [tail_alloc]
    rcases hRcases with ⟨_, hR⟩ | ⟨hh, hs, hhv, hR⟩
    · simp [hR]
    · have hhmem : R ∈ mids := hhighs_sub (by rw [hhv, hR]; simp)
      rw [hsame1 R (hmidle R hhmem)]
  -- unfold insert one loop iteration
  have hfuel : s.nodes.length + 2 = (s.nodes.length + 1) + 1 := rfl
  by_cases hmem : k ∈ mids.map fun i => (getNode s i).key
  · -- duplicate key: return false, heap keeps the (leaked) allocation
    refine ⟨s1, false, mids, ?_, h1, by simp [hmem], ?_⟩
    · show insertLoop s1 k newIdx (s.nodes.length + 2) = some (s1, false)
      rw [hfuel, insertLoop, hsearch]
      simp only [if_pos (hdup_iff.mpr hmem)]
    · intro x
      have hmk : (mids.map fun i => (getNode s1 i).key) =
          mids.map fun i => (getNode s i).key :=
        List.map_congr_left fun a ha => by rw [hsame1 a (hmidle a ha)]
      rw [hmk]
      constructor
      · exact Or.inl
      · rintro (hx | rfl)
        · exact hx
        · exact hmem
  · -- new key: the CAS succeeds, linking the fresh node between L and R
    set s2 := setNext s1 newIdx R with hs2
    set s3 := setNext s2 L newIdx with hs3
    have hlen2 : s2.nodes.length = s.nodes.length + 1 := by
      rw [length_setNext, length_alloc]
    have hcas : (getNode s2 L).next = R := by
      rw [getNode_setNext s1 R L (by omega)]
      rw [if_neg (by simp [hLnew])]
      rw [hsame1 L hLle]
      exact hadj
    have hrun : insert s k = some (s3, true) := by
      show insertLoop s1 k newIdx (s.nodes.length + 2) = some (s3, true)
      rw [hfuel, insertLoop, hsearch]
      simp only [if_neg (fun hc => hmem (hdup_iff.mp hc)), if_pos hcas]
    -- node lookups in s3
    have g3 : ∀ a, a ≠ newIdx → a ≠ L → a ≤ s.nodes.length → getNode s3 a = getNode s a := by
      intro a hanew haL hale
      rw [hs3, getNode_setNext s2 newIdx a hL1, if_neg (by simp [haL])]
      rw [hs2, getNode_setNext s1 R a (by omega), if_neg (by simp [hanew])]
      exact hsame1 a hale
    have g3L : getNode s3 L = { getNode s L with next := newIdx } := by
      rw [hs3, getNode_setNext s2 newIdx L hL1,
        if_pos ⟨rfl, by rw [hlen2]; omega⟩]
      rw [hs2, getNode_setNext s1 R L (by omega), if_neg (by simp [hLnew]),
        hsame1 L hLle]
    have g3new : getNode s3 newIdx =
        { key := k, next := R, marked := false, deleted := false } := by
      rw [hs3, getNode_setNext s2 newIdx newIdx hL1, if_neg (by simp [Ne.symm hLnew])]
      rw [hs2, getNode_setNext s1 R newIdx (by omega),
        if_pos ⟨rfl, by rw [length_alloc]⟩]
      rw [getNode_alloc_new]
    have hmarked3 : ∀ j, (getNode s3 j).marked = (getNode s1 j).marked := by
      intro j
      rw [hs3, marked_setNext s2 newIdx j hL1, hs2, marked_setNext s1 R j (by omega)]
    have hdeleted3 : ∀ j, (getNode s3 j).deleted = (getNode s1 j).deleted := by
      intro j
      rw [hs3, deleted_setNext s2 newIdx j hL1, hs2, deleted_setNext s1 R j (by omega)]
    have hkey3 : ∀ j, (getNode s3 j).key = (getNode s1 j).key := by
      intro j
      rw [hs3, key_setNext s2 newIdx j hL1, hs2, key_setNext s1 R j (by omega)]
    have hkey3' : ∀ j ∈ mids, (getNode s3 j).key = (getNode s j).key := fun j hj => by
      rw [hkey3 j, hsame1 j (hmidle j hj)]
    have hhead3 : s3.head = s.head := by rw [hs3, head_setNext, hs2, head_setNext, head_alloc]
    have htail3 : s3.tail = s.tail := by rw [hs3, tail_setNext, hs2, tail_setNext, tail_alloc]
    have hlen3 : s3.nodes.length = s.nodes.length + 1 := by
      rw [hs3, length_setNext, hlen2]
    have hnodup_lows : (s.head :: lows).Nodup := by
      rw [List.nodup_cons]
      exact ⟨fun hc => hheadmem (hlows_sub hc),
        (List.takeWhile_sublist P).nodup h.hnodup⟩
    have hdisj : ∀ a ∈ highs, a ∉ s.head :: lows := by
      intro a ha hc
      rcases List.mem_cons.mp hc with hc | hc
      · exact hheadmem (hc ▸ hhighs_sub ha)
      · have hnd : (lows ++ highs).Nodup := by rw [hsplit]; exact h.hnodup
        exact List.disjoint_of_nodup_append hnd hc ha
    -- the new chain
    have hpath3 : path s3 s.head (lows ++ newIdx :: highs) s.tail := by
      rw [path_append]
      constructor
      · -- head -> lows -> newIdx
        have hsrc : path s s.head lows R := by
          rcases hRcases with ⟨hnil, hR⟩ | ⟨hh, hs, hhv, hR⟩
          · have : lows = mids := by rw [← hsplit, hnil, List.append_nil]
            rw [this, hR]; exact h.hpath
          · have : mids = lows ++ hh :: hs := by rw [← hsplit, hhv]
            rw [hR]
            exact (path_append.mp (this ▸ h.hpath)).1
        exact path_retarget hsrc hnodup_lows
          (fun a ha hne => g3 a
            (by rcases List.mem_cons.mp ha with hc | hc
                · rw [hc, h.hhead]; omega
                · have := hmid3 a (hlows_sub hc); have := hmidle a (hlows_sub hc); omega)
            hne
            (by rcases List.mem_cons.mp ha with hc | hc
                · rw [hc]; exact hheadle
                · exact hmidle a (hlows_sub hc)))
          (by rw [g3L])
      · -- newIdx -> highs -> tail
        rcases hRcases with ⟨hnil, hR⟩ | ⟨hh, hs, hhv, hR⟩
        · rw [hnil]
          show (getNode s3 newIdx).next = s.tail
          rw [g3new, ← hR]
        · rw [hhv]
          refine ⟨by rw [g3new, hR], ?_⟩
          have hmids_eq : mids = lows ++ hh :: hs := by rw [← hsplit, hhv]
          have hsrc : path s hh hs s.tail := (path_append.mp (hmids_eq ▸ h.hpath)).2
          refine path_congr hsrc ?_
          intro a ha
          have hamem : a ∈ highs := by rw [hhv]; exact ha
          refine g3 a (by have := hmidle a (hhighs_sub hamem); omega)
            (fun hc => hdisj a hamem (hc ▸ hLmem)) (hmidle a (hhighs_sub hamem))
      -- sortedness bookkeeping
    have hkeymap : ((lows ++ newIdx :: highs).map fun i => (getNode s3 i).key) =
        (lows.map fun i => (getNode s i).key) ++ k ::
          (highs.map fun i => (getNode s i).key) := by
      rw [List.map_append, List.map_cons]
      congr 1
      · exact List.map_congr_left fun a ha => hkey3' a (hlows_sub ha)
      · congr 1
        · rw [g3new]
        · exact List.map_congr_left fun a ha => hkey3' a (hhighs_sub ha)
    have hsorted_old : List.Pairwise (· < ·)
        ((lows.map fun i => (getNode s i).key) ++ (highs.map fun i => (getNode s i).key)) := by
      rw [← List.map_append, hsplit]
      exact h.hsorted
    obtain ⟨pl, ph, pcross⟩ := List.pairwise_append.mp hsorted_old
    have hlowsK : ∀ a ∈ lows.map fun i => (getNode s i).key, a < k := by
      intro a ha
      obtain ⟨i, hi, rfl⟩ := List.mem_map.mp ha
      have := List.mem_takeWhile_imp hi
      rw [hP] at this
      exact of_decide_eq_true this
    have hhighsK : ∀ b ∈ highs.map fun i => (getNode s i).key, k < b := by
      rcases hRcases with ⟨hnil, _⟩ | ⟨hh, hs, hhv, hR⟩
      · rw [hnil]; simp
      · have hple : P hh = false := by
          have := List.head?_dropWhile_not P mids
          rw [← hhighs, hhv] at this
          simpa using this
        have hhk : k < (getNode s hh).key := by
          have h1' : ¬ (getNode s hh).key < k := by
            rw [hP] at hple; simpa using hple
          have h2' : (getNode s hh).key ≠ k := by
            intro hc
            exact hmem (List.mem_map.mpr ⟨hh, hhighs_sub (by rw [hhv]; simp), hc⟩)
          omega
        intro b hb
        rw [hhv, List.map_cons] at hb
        rcases List.mem_cons.mp hb with rfl | hb
        · exact hhk
        · have := (List.pairwise_cons.mp (by rw [hhv, List.map_cons] at ph; exact ph)).1 b hb
          omega
    have hsorted3 : List.Pairwise (· < ·)
        ((lows ++ newIdx :: highs).map fun i => (getNode s3 i).key) := by
      rw [hkeymap]
      rw [List.pairwise_append]
      refine ⟨pl, ?_, ?_⟩
      · rw [List.pairwise_cons]
        exact ⟨hhighsK, ph⟩
      · intro a ha b hb
        rcases List.mem_cons.mp hb with rfl | hb
        · exact hlowsK a ha
        · exact pcross a ha b hb
    have hok3 : okState s3 (lows ++ newIdx :: highs) := by
      refine ⟨by rw [hhead3, h.hhead], by rw [htail3, h.htail], by rw [hlen3]; have := h.hlen; omega,
        ?_, by rw [hhead3, htail3]; exact hpath3, ?_, ?_, ?_, hsorted3, ?_, ?_⟩
      · rw [hlen3]
        have : lows.length + highs.length = mids.length := by
          rw [← List.length_append, hsplit]
        have := h.hmidlen
        simp only [List.length_append, List.length_cons]
        omega
      · intro i hi
        rw [hlen3]
        rcases List.mem_append.mp hi with hc | hc
        · have := h.hvalid i (hlows_sub hc); omega
        · rcases List.mem_cons.mp hc with rfl | hc
          · have := h.hlen; omega
          · have := h.hvalid i (hhighs_sub hc); omega
      · rw [List.nodup_middle, List.nodup_cons, hsplit]
        refine ⟨fun hc => ?_, h.hnodup⟩
        have := hmidle newIdx hc; omega
      · intro i hi
        rw [hmarked3, hdeleted3]
        rcases List.mem_append.mp hi with hc | hc
        · rw [hsame1 i (hmidle i (hlows_sub hc))]
          exact h.hclean i (hlows_sub hc)
        · rcases List.mem_cons.mp hc with rfl | hc
          · rw [hs1]
            show ((getNode (allocNode s k).1 (s.nodes.length + 1)).marked = false ∧
              (getNode (allocNode s k).1 (s.nodes.length + 1)).deleted = false)
            rw [getNode_alloc_new]
            exact ⟨rfl, rfl⟩
          · rw [hsame1 i (hmidle i (hhighs_sub hc))]
            exact h.hclean i (hhighs_sub hc)
      · rw [hhead3, hmarked3, hdeleted3, hsame1 s.head hheadle]
        exact h.hheadok
      · rw [htail3, hmarked3, hdeleted3, hsame1 s.tail htaille]
        exact h.htailok
    refine ⟨s3, true, lows ++ newIdx :: highs, hrun, hok3, by simp [hmem], ?_⟩
    intro x
    rw [hkeymap]
    have hmemsplit : (x ∈ mids.map fun i => (getNode s i).key) ↔
        ((x ∈ lows.map fun i => (getNode s i).key) ∨
          (x ∈ highs.map fun i => (getNode s i).key)) := by
      rw [← hsplit, List.map_append, List.mem_append]
    rw [hmemsplit]
    simp only [List.mem_append, List.mem_cons]
    constructor
    · rintro (hx | rfl | hx)
      · exact Or.inl (Or.inl hx)
      · exact Or.inr rfl
      · exact Or.inl (Or.inr hx)
    · rintro ((hx | hx) | rfl)
      · exact Or.inl hx
      · exact Or.inr (Or.inr hx)
      · exact Or.inr (Or.inl rfl)

/-! ## Specification of `find` on a reachable state -/

theorem find_spec {s : LFState} {mids : List Nat} (h : okState s mids) (k : Int) :
    ∃ b, find s k = some (s, b) ∧
      (b = true ↔ k ∈ mids.map fun i => (getNode s i).key) := by
  have hrun : find s k = some (s, decide ((walkSpec s k s.head mids).2 ≠ s.tail ∧
      (getNode s (walkSpec s k s.head mids).2).key = k)) := by
    unfold find
    rw [searchOp_ok h k]
  refine ⟨_, hrun, ?_⟩
  rw [decide_eq_true_eq]
  exact (walkSpec_mem_iff mids s.head h.hsorted fun i hi => h.mid_ne_tail hi).symm

/-! ## Specification of `remove` on a reachable state -/

theorem remove_spec {s : LFState} {mids : List Nat} (h : okState s mids) (k : Int) :
    ∃ s' b mids', remove s k = some (s', b) ∧ okState s' mids' ∧
      (b = true ↔ k ∈ mids.map fun i => (getNode s i).key) ∧
      (∀ x : Int, (x ∈ mids'.map fun i => (getNode s' i).key) ↔
        ((x ∈ mids.map fun i => (getNode s i).key) ∧ x ≠ k)) ∧
      (b = true → ∃ rid ∈ mids, (getNode s rid).key = k ∧
        (getNode s rid).marked = false ∧ (getNode s' rid).marked = true) := by
  classical
  set P : Nat → Bool := fun i => decide ((getNode s i).key < k) with hP
  set lows := mids.takeWhile P with hlows
  set highs := mids.dropWhile P with hhighs
  have hsplit : lows ++ highs = mids := List.takeWhile_append_dropWhile P mids
  set L := lastN s.head lows with hLdef
  set R := highs.headD s.tail with hRdef
  have hwalk : walkSpec s k s.head mids = (L, R) := walkSpec_eq s k s.head mids
  have hmidle : ∀ a ∈ mids, a ≤ s.nodes.length := fun a ha => (h.hvalid a ha).2
  have hmid3 : ∀ a ∈ mids, 3 ≤ a := fun a ha => (h.hvalid a ha).1
  have hheadle : s.head ≤ s.nodes.length := by rw [h.hhead]; have := h.hlen; omega
  have htaille : s.tail ≤ s.nodes.length := by rw [h.htail]; have := h.hlen; omega
  have hsearch : searchOp s k = some (s, L, R) := by
    rw [searchOp_ok h k, hwalk]
  have hlows_sub : lows ⊆ mids := (List.takeWhile_sublist P).subset
  have hhighs_sub : highs ⊆ mids := (List.dropWhile_sublist P).subset
  have hheadmem : s.head ∉ mids := fun hc => absurd (hmid3 _ hc) (by rw [h.hhead]; omega)
  have hLmem : L ∈ s.head :: lows := lastN_mem s.head lows
  have hL1 : 1 ≤ L := by
    rcases List.mem_cons.mp hLmem with hc | hc
    · rw [hc, h.hhead]
    · have := hmid3 L (hlows_sub hc); omega
  have hLle : L ≤ s.nodes.length := by
    rcases List.mem_cons.mp hLmem with hc | hc
    · rw [hc]; exact hheadle
    · exact hmidle L (hlows_sub hc)
  have hadj : (getNode s L).next = R := by
    have := walkSpec_adj (k := k) h.hpath
    rwa [hwalk] at this
  have hmem_iff : (k ∈ mids.map fun i => (getNode s i).key) ↔
      (R ≠ s.tail ∧ (getNode s R).key = k) := by
    rw [walkSpec_mem_iff mids s.head h.hsorted (fun i hi => h.mid_ne_tail hi), hwalk]
  have hfuel : s.nodes.length + 2 = (s.nodes.length + 1) + 1 := rfl
  by_cases hmem : k ∈ mids.map fun i => (getNode s i).key
  · -- the key is present: R is the node carrying it
    obtain ⟨hRnt, hRkey⟩ := hmem_iff.mp hmem
    have hRcase : ∃ hs2, highs = R :: hs2 := by
      cases hhv : highs with
      | nil =>
        exfalso
        apply hRnt
        rw [hRdef, hhv]
        rfl
      | cons hh hs2 =>
        have hRh : R = hh := by rw [hRdef, hhv]; rfl
        exact ⟨hs2, by rw [hRh]⟩
    obtain ⟨hs', hRhl⟩ := hRcase
    have hmids_eq : mids = lows ++ R :: hs' := by rw [← hsplit, hRhl]
    have hRmem : R ∈ mids := by rw [hmids_eq]; simp
    have hR3 : 3 ≤ R := hmid3 R hRmem
    have hRle : R ≤ s.nodes.length := hmidle R hRmem
    have hRclean := h.hclean R hRmem
    have hpsplit := path_append.mp (hmids_eq ▸ h.hpath)
    have hnodup_ms : (lows ++ R :: hs').Nodup := hmids_eq ▸ h.hnodup
    have hRlows : R ∉ lows := by
      intro hc
      have := List.disjoint_of_nodup_append hnodup_ms hc (by simp)
      exact this
    have hLR : L ≠ R := by
      rcases List.mem_cons.mp hLmem with hc | hc
      · rw [hc]; exact fun hc2 => hheadmem (hc2 ▸ hRmem)
      · exact fun hc2 => hRlows (hc2 ▸ hc)
    set rnext := (getNode s R).next with hrnext
    set s1 := setMarked s R true with hs1
    set s' := setNext s1 L rnext with hsP
    have hrun : remove s k = some (s', true) := by
      have hnotfound : ¬(R = s.tail ∨ (getNode s R).key ≠ k) := fun hc =>
        hc.elim (fun hc2 => hRnt hc2) (fun hc2 => hc2 hRkey)
      have hnoretry : ¬((getNode s R).next ≠ (getNode s R).next ∨
          (getNode s R).deleted = true) := by simp [hRclean.2]
      have hloop : removeLoop s k (s.nodes.length + 2) = some (s1, L, R, rnext, true) := by
        rw [hfuel, removeLoop, hsearch]
        simp only [if_neg hnotfound, if_neg hnoretry, if_pos hRclean.1]
      unfold remove
      rw [hloop]
      have hcas : (getNode s1 L).next = R := by
        rw [hs1, next_setMarked s true L (by omega), hadj]
      simp only [if_pos hcas]
    -- lookups in s'
    have hkey' : ∀ j, (getNode s' j).key = (getNode s j).key := by
      intro j
      rw [hsP, key_setNext s1 rnext j hL1, hs1, key_setMarked s true j (by omega)]
    have hdel' : ∀ j, (getNode s' j).deleted = (getNode s j).deleted := by
      intro j
      rw [hsP, deleted_setNext s1 rnext j hL1, hs1, deleted_setMarked s true j (by omega)]
    have hmark' : ∀ j, j ≠ R → (getNode s' j).marked = (getNode s j).marked := by
      intro j hj
      rw [hsP, marked_setNext s1 rnext j hL1, hs1,
        getNode_setMarked s true j (by omega), if_neg (by simp [hj])]
    have hmarkR : (getNode s' R).marked = true := by
      rw [hsP, marked_setNext s1 rnext R hL1, hs1,
        getNode_setMarked s true R (by omega), if_pos ⟨rfl, hRle⟩]
    have g' : ∀ a, a ≠ L → a ≠ R → getNode s' a = getNode s a := by
      intro a haL haR
      rw [hsP, getNode_setNext s1 rnext a hL1, if_neg (by simp [haL]), hs1,
        getNode_setMarked s true a (by omega), if_neg (by simp [haR])]
    have g'L : (getNode s' L).next = rnext := by
      rw [hsP, getNode_setNext s1 rnext L hL1,
        if_pos ⟨rfl, by rw [hs1, length_setMarked]; exact hLle⟩]
    have hhead' : s'.head = s.head := by rw [hsP, head_setNext, hs1, head_setMarked]
    have htail' : s'.tail = s.tail := by rw [hsP, tail_setNext, hs1, tail_setMarked]
    have hlen' : s'.nodes.length = s.nodes.length := by
      rw [hsP, length_setNext, hs1, length_setMarked]
    have hnodup_lows : (s.head :: lows).Nodup := by
      rw [List.nodup_cons]
      exact ⟨fun hc => hheadmem (hlows_sub hc),
        (List.takeWhile_sublist P).nodup h.hnodup⟩
    have hdisj' : ∀ a ∈ R :: hs', a ∉ s.head :: lows := by
      intro a ha hc
      rcases List.mem_cons.mp hc with hc | hc
      · exact hheadmem (hc ▸ (hmids_eq ▸ (List.mem_append.mpr (Or.inr ha))))
      · exact List.disjoint_of_nodup_append hnodup_ms hc ha
    -- the chain after physical unlinking
    have hrnext_cases : (hs' = [] ∧ rnext = s.tail) ∨
        ∃ h2 t2, hs' = h2 :: t2 ∧ rnext = h2 := by
      cases hsv : hs' with
      | nil =>
        refine Or.inl ⟨rfl, ?_⟩
        have hp2 := hpsplit.2
        rw [hsv] at hp2
        rw [hrnext]
        exact hp2
      | cons h2 t2 =>
        refine Or.inr ⟨h2, t2, rfl, ?_⟩
        have hp2 := hpsplit.2
        rw [hsv] at hp2
        rw [hrnext]
        exact hp2.1
    have hpath_lows : path s' s.head lows rnext := by
      refine path_retarget hpsplit.1 hnodup_lows ?_ g'L
      intro a ha hne
      refine g' a hne fun hc => hdisj' R (by simp) (by rw [← hc]; exact ha)
    have hpath' : path s' s.head (lows ++ hs') s.tail := by
      rcases hrnext_cases with ⟨hnil, hrt⟩ | ⟨h2, t2, hsv, hrn⟩
      · rw [hnil, List.append_nil]
        rw [hrt] at hpath_lows
        exact hpath_lows
      · rw [hsv]
        rw [path_append]
        constructor
        · rw [← hrn]; exact hpath_lows
        · have hsrc : path s h2 t2 s.tail := by
            have := hpsplit.2
            rw [hsv] at this
            exact this.2
          refine path_congr hsrc ?_
          intro a ha
          have hamem : a ∈ R :: hs' := by
            rw [hsv]
            rcases List.mem_cons.mp ha with hc | hc
            · simp [hc]
            · simp [hc]
          refine g' a (fun hc => hdisj' a hamem (by rw [hc]; exact hLmem)) ?_
          intro hc
          have hRhs : R ∈ hs' := by
            rw [hsv, ← hc]
            exact ha
          have hnd := List.nodup_middle.mp hnodup_ms
          rw [List.nodup_cons] at hnd
          exact hnd.1 (List.mem_append.mpr (Or.inr hRhs))
      -- keys of the new chain
    have hkeymap : ((lows ++ hs').map fun i => (getNode s' i).key) =
        ((lows ++ hs').map fun i => (getNode s i).key) :=
      List.map_congr_left fun a _ => hkey' a
    have hsorted_ms : List.Pairwise (· < ·)
        (((lows ++ R :: hs').map fun i => (getNode s i).key)) := hmids_eq ▸ h.hsorted
    have hsorted' : List.Pairwise (· < ·) ((lows ++ hs').map fun i => (getNode s i).key) := by
      have hsub : List.Sublist (lows ++ hs') (lows ++ R :: hs') :=
        List.Sublist.append_left (List.sublist_cons_self R hs') lows
      exact List.Pairwise.sublist (hsub.map fun i => (getNode s i).key) hsorted_ms
    have hok' : okState s' (lows ++ hs') := by
      refine ⟨by rw [hhead', h.hhead], by rw [htail', h.htail],
        by rw [hlen']; exact h.hlen, ?_,
        by rw [hhead', htail']; exact hpath', ?_, ?_, ?_, by rw [hkeymap]; exact hsorted',
        ?_, ?_⟩
      · rw [hlen']
        have := h.hmidlen
        have : (lows ++ R :: hs').length = mids.length := by rw [← hmids_eq]
        simp only [List.length_append, List.length_cons] at this ⊢
        have := h.hmidlen
        omega
      · intro i hi
        rw [hlen']
        rcases List.mem_append.mp hi with hc | hc
        · exact h.hvalid i (hlows_sub hc)
        · exact h.hvalid i (by rw [hmids_eq]; simp [hc])
      · have hsub : List.Sublist (lows ++ hs') (lows ++ R :: hs') :=
          List.Sublist.append_left (List.sublist_cons_self R hs') lows
        exact hsub.nodup hnodup_ms
      · intro i hi
        have hiR : i ≠ R := by
          intro hc
          rcases List.mem_append.mp hi with hc2 | hc2
          · exact hRlows (hc ▸ hc2)
          · have hnd := List.nodup_middle.mp hnodup_ms
            rw [List.nodup_cons] at hnd
            exact hnd.1 (List.mem_append.mpr (Or.inr (hc ▸ hc2)))
        have himem : i ∈ mids := by
          rcases List.mem_append.mp hi with hc | hc
          · exact hlows_sub hc
          · rw [hmids_eq]; simp [hc]
        rw [hmark' i hiR, hdel' i]
        exact h.hclean i himem
      · rw [hhead', hmark' s.head (fun hc => hheadmem (hc ▸ hRmem)), hdel']
        exact h.hheadok
      · rw [htail', hmark' s.tail (fun hc => (h.mid_ne_tail hRmem) hc.symm), hdel']
        exact h.htailok
    -- key bounds for the membership property
    have hlowsK : ∀ a ∈ lows.map fun i => (getNode s i).key, a < k := by
      intro a ha
      obtain ⟨i, hi, rfl⟩ := List.mem_map.mp ha
      have := List.mem_takeWhile_imp hi
      rw [hP] at this
      exact of_decide_eq_true this
    have hhsK : ∀ b ∈ hs'.map fun i => (getNode s i).key, k < b := by
      intro b hb
      have := hsorted_ms
      rw [List.map_append, List.pairwise_append] at this
      have hRcons := this.2.1
      rw [List.map_cons, List.pairwise_cons] at hRcons
      have := hRcons.1 b hb
      omega
    refine ⟨s', true, lows ++ hs', hrun, hok', by simp [hmem], ?_, ?_⟩
    · intro x
      rw [hkeymap]
      have hmemsplit : (x ∈ mids.map fun i => (getNode s i).key) ↔
          ((x ∈ lows.map fun i => (getNode s i).key) ∨ x = k ∨
            (x ∈ hs'.map fun i => (getNode s i).key)) := by
        rw [hmids_eq, List.map_append, List.mem_append, List.map_cons, List.mem_cons, hRkey]
      rw [hmemsplit, List.map_append, List.mem_append]
      constructor
      · rintro (hx | hx)
        · exact ⟨Or.inl hx, by have := hlowsK x hx; omega⟩
        · exact ⟨Or.inr (Or.inr hx), by have := hhsK x hx; omega⟩
      · rintro ⟨(hx | rfl | hx), hne⟩
        · exact Or.inl hx
        · exact absurd rfl hne
        · exact Or.inr hx
    · intro _
      exact ⟨R, hRmem, hRkey, hRclean.1, hmarkR⟩
  · -- the key is absent: remove returns false and changes nothing
    have habs : R = s.tail ∨ (getNode s R).key ≠ k := by
      by_contra hc
      push_neg at hc
      exact hmem (hmem_iff.mpr ⟨hc.1, hc.2⟩)
    have hrun : remove s k = some (s, false) := by
      have hloop : removeLoop s k (s.nodes.length + 2) = some (s, L, R, 0, false) := by
        rw [hfuel, removeLoop, hsearch]
        simp only [if_pos habs]
      unfold remove
      rw [hloop]
    refine ⟨s, false, mids, hrun, h, by simp [hmem], ?_, by simp⟩
    intro x
    constructor
    · intro hx
      refine ⟨hx, ?_⟩
      rintro rfl
      exact hmem hx
    · exact fun hx => hx.1

/-- The freshly constructed list is a reachable state with no real nodes. -/
theorem okState_init : okState initList [] := by
  refine ⟨rfl, rfl, by simp [initList], by simp [initList], ?_, by simp, by simp,
    by simp, by simp, ?_, ?_⟩
  · show (getNode initList 1).next = 2
    rfl
  · exact ⟨rfl, rfl⟩
  · exact ⟨rfl, rfl⟩

/-! ## Reachability: every operation sequence preserves the invariant -/

theorem runOp_ok {s : LFState} {mids : List Nat} (h : okState s mids) (op : Op) :
    ∃ s' mids', runOp s op = some s' ∧ okState s' mids' := by
  cases op with
  | ins k =>
    obtain ⟨s', b, mids', hrun, hok, -, -⟩ := insert_spec h k
    exact ⟨s', mids', by simp [runOp, hrun], hok⟩
  | rem k =>
    obtain ⟨s', b, mids', hrun, hok, -, -, -⟩ := remove_spec h k
    exact ⟨s', mids', by simp [runOp, hrun], hok⟩
  | fnd k =>
    obtain ⟨b, hrun, -⟩ := find_spec h k
    exact ⟨s, mids, by simp [runOp, hrun], h⟩

theorem foldlM_runOp_ok :
    ∀ (ops : List Op) (s : LFState) (mids : List Nat), okState s mids →
      ∃ s' mids', ops.foldlM runOp s = some s' ∧ okState s' mids' := by
  intro ops
  induction ops with
  | nil => intro s mids h; exact ⟨s, mids, rfl, h⟩
  | cons op ops ih =>
    intro s mids h
    obtain ⟨s1, mids1, hrun, hok⟩ := runOp_ok h op
    obtain ⟨s', mids', hrun', hok'⟩ := ih s1 mids1 hok
    refine ⟨s', mids', ?_, hok'⟩
    rw [List.foldlM_cons, hrun]
    simpa using hrun'

/-- Every state produced by a finite sequence of completed operations from a
fresh list satisfies the invariant. -/
theorem reachable_ok {ops : List Op} {s : LFState} (h : runOps ops = some s) :
    ∃ mids, okState s mids := by
  obtain ⟨s', mids', hrun, hok⟩ := foldlM_runOp_ok ops initList [] okState_init
  unfold runOps at h
  rw [h] at hrun
  obtain rfl : s = s' := by injection hrun
  exact ⟨mids', hok⟩

/-! ## Claim theorems for the list operations -/

/-- C1: for every key `k` and every reachable list state, `insert(k)` returns
true iff `k` was not previously the key of a live (unmarked, reachable) node,
and after the call a live node with key `k` is a member of the list;
`insert(k)` returns false iff a live node whose key equals `k` is observed. -/
theorem C1_insert_iff_member {ops : List Op} {s : LFState} (k : Int)
    (h : runOps ops = some s) :
    ∃ s' b, insert s k = some (s', b) ∧
      (b = true ↔ (¬ liveMem s k ∧ liveMem s' k)) ∧
      (b = false ↔ liveMem s k) := by
  obtain ⟨mids, hok⟩ := reachable_ok h
  obtain ⟨s', b, mids', hrun, hok', hbiff, hmemiff⟩ := insert_spec hok k
  have hlive : ∀ x, liveMem s x ↔ x ∈ mids.map fun i => (getNode s i).key := by
    intro x; unfold liveMem; rw [liveKeysD_ok hok]
  have hlive' : ∀ x, liveMem s' x ↔ x ∈ mids'.map fun i => (getNode s' i).key := by
    intro x; unfold liveMem; rw [liveKeysD_ok hok']
  refine ⟨s', b, hrun, ?_, ?_⟩
  · rw [hbiff, hlive k, hlive' k, hmemiff k]
    constructor
    · exact fun hk => ⟨hk, Or.inr rfl⟩
    · exact fun hk => hk.1
  · rw [hlive k]
    cases b with
    | true =>
      simp only [Bool.true_eq_false, false_iff]
      exact hbiff.mp rfl
    | false =>
      refine iff_of_true rfl ?_
      by_contra hc
      exact absurd (hbiff.mpr hc) (by simp)

/-- C1 witness: inserting into the fresh empty list succeeds. -/
theorem C1_witness :
    ∃ s' b, insert initList 5 = some (s', b) ∧
      (b = true ↔ (¬ liveMem initList 5 ∧ liveMem s' 5)) ∧
      (b = false ↔ liveMem initList 5) :=
  @C1_insert_iff_member [] initList 5 rfl

/-- C2: for every key `k` and every reachable list state, `remove(k)` returns
true iff a live node with key `k` was a member and this call transitioned it
out of the set (its mark flipped from false to true); it returns false iff no
live node with key `k` exists. -/
theorem C2_remove_iff_member {ops : List Op} {s : LFState} (k : Int)
    (h : runOps ops = some s) :
    ∃ s' b, remove s k = some (s', b) ∧
      (b = true ↔ liveMem s k) ∧
      (b = false ↔ ¬ liveMem s k) ∧
      (b = true → ¬ liveMem s' k ∧
        ∃ rid, (getNode s rid).key = k ∧ (getNode s rid).marked = false ∧
          (getNode s' rid).marked = true) := by
  obtain ⟨mids, hok⟩ := reachable_ok h
  obtain ⟨s', b, mids', hrun, hok', hbiff, hmemiff, hmark⟩ := remove_spec hok k
  have hlive : ∀ x, liveMem s x ↔ x ∈ mids.map fun i => (getNode s i).key := by
    intro x; unfold liveMem; rw [liveKeysD_ok hok]
  have hlive' : ∀ x, liveMem s' x ↔ x ∈ mids'.map fun i => (getNode s' i).key := by
    intro x; unfold liveMem; rw [liveKeysD_ok hok']
  refine ⟨s', b, hrun, by rw [hbiff, hlive k], ?_, ?_⟩
  · rw [hlive k]
    cases b with
    | true =>
      simp only [Bool.true_eq_false, false_iff, not_not]
      exact hbiff.mp rfl
    | false =>
      refine iff_of_true rfl ?_
      exact fun hc => absurd (hbiff.mpr hc) (by simp)
  · intro hb
    refine ⟨?_, ?_⟩
    · rw [hlive' k, hmemiff k]
      simp
    · obtain ⟨rid, -, hk, hm, hm'⟩ := hmark hb
      exact ⟨rid, hk, hm, hm'⟩

/-- C2 witness: removing from the fresh empty list returns false. -/
theorem C2_witness :
    ∃ s' b, remove initList 7 = some (s', b) ∧
      (b = true ↔ liveMem initList 7) ∧
      (b = false ↔ ¬ liveMem initList 7) ∧
      (b = true → ¬ liveMem s' 7 ∧
        ∃ rid, (getNode initList rid).key = 7 ∧ (getNode initList rid).marked = false ∧
          (getNode s' rid).marked = true) :=
  @C2_remove_iff_member [] initList 7 rfl

/-- C3: on every reachable list state, `search(k)` returns a pair
(`left`, `right`) with `left` unmarked, `right` the tail sentinel or
unmarked, `left.next = right`, `right.key ≥ k` when `right ≠ TAIL`, and
`left.key < k` when `left ≠ HEAD`. -/
theorem C3_search_postcondition {ops : List Op} {s : LFState} (k : Int)
    (h : runOps ops = some s) :
    ∃ left right, searchOp s k = some (s, left, right) ∧
      (getNode s left).marked = false ∧
      (right = s.tail ∨ (getNode s right).marked = false) ∧
      (getNode s left).next = right ∧
      (right ≠ s.tail → k ≤ (getNode s right).key) ∧
      (left ≠ s.head → (getNode s left).key < k) := by
  obtain ⟨mids, hok⟩ := reachable_ok h
  refine ⟨(walkSpec s k s.head mids).1, (walkSpec s k s.head mids).2,
    searchOp_ok hok k, ?_, ?_, walkSpec_adj hok.hpath, ?_, ?_⟩
  · rcases walkSpec_fst_eq_or s k s.head mids with hc | hc
    · rw [hc]; exact hok.hheadok.1
    · exact (hok.hclean _ hc.1).1
  · rcases walkSpec_snd_eq_or s k s.head mids with hc | hc
    · exact Or.inl hc
    · exact Or.inr (hok.hclean _ hc.1).1
  · intro hne
    rcases walkSpec_snd_eq_or s k s.head mids with hc | hc
    · exact absurd hc hne
    · exact hc.2
  · intro hne
    rcases walkSpec_fst_eq_or s k s.head mids with hc | hc
    · exact absurd hc hne
    · exact hc.2

/-- C3 witness: `search(3)` on the fresh empty list returns (HEAD, TAIL). -/
theorem C3_witness :
    ∃ left right, searchOp initList 3 = some (initList, left, right) ∧
      (getNode initList left).marked = false ∧
      (right = initList.tail ∨ (getNode initList right).marked = false) ∧
      (getNode initList left).next = right ∧
      (right ≠ initList.tail → 3 ≤ (getNode initList right).key) ∧
      (left ≠ initList.head → (getNode initList left).key < 3) :=
  @C3_search_postcondition [] initList 3 rfl

/-- C4: after every finite sequence of completed insert/remove/find
operations starting from a freshly constructed list, walking the chain from
HEAD to TAIL yields nodes with strictly increasing keys (hence no duplicate
keys) and no node on the chain is marked. -/
theorem C4_quiescent_sorted_unmarked (ops : List Op) :
    ∃ s, runOps ops = some s ∧
      ∃ l, chainIds s = some l ∧
        List.Pairwise (· < ·) (l.map fun i => (getNode s i).key) ∧
        (l.map fun i => (getNode s i).key).Nodup ∧
        ∀ i ∈ l, (getNode s i).marked = false := by
  obtain ⟨s, mids, hrun, hok⟩ := foldlM_runOp_ok ops initList [] okState_init
  refine ⟨s, hrun, mids, chainIds_ok hok, hok.hsorted, ?_,
    fun i hi => (hok.hclean i hi).1⟩
  exact List.Pairwise.imp (fun hab => ne_of_lt hab) hok.hsorted

/-- C5: for every key `k` and every reachable list state, `find(k)` returns
true iff a live (unmarked, reachable) node with key `k` exists, and `find`
does not modify the state at all (in particular the set of live keys is
unchanged). -/
theorem C5_find_iff_member {ops : List Op} {s : LFState} (k : Int)
    (h : runOps ops = some s) :
    ∃ b, find s k = some (s, b) ∧ (b = true ↔ liveMem s k) := by
  obtain ⟨mids, hok⟩ := reachable_ok h
  obtain ⟨b, hrun, hbiff⟩ := find_spec hok k
  refine ⟨b, hrun, ?_⟩
  rw [hbiff]
  unfold liveMem
  rw [liveKeysD_ok hok]

/-- C5 witness: `find(3)` on the fresh empty list returns false and leaves
the state untouched. -/
theorem C5_witness :
    ∃ b, find initList 3 = some (initList, b) ∧ (b = true ↔ liveMem initList 3) :=
  @C5_find_iff_member [] initList 3 rfl

/-- C7 (code behaviour at the failing input): inserting a duplicate key
returns false and leaves the live keys unchanged, but the node allocated for
the duplicate is NOT freed: it stays in the heap (the node count grows),
unreachable from HEAD, with its `deleted` flag still false - the
`delete new_node` step of the specification is absent from the source. -/
theorem C7_duplicate_insert_leaks :
    runOps [Op.ins 5] = some
      { nodes := [{ key := 0, next := 3, marked := false, deleted := false },
                  { key := 0, next := 0, marked := false, deleted := false },
                  { key := 5, next := 2, marked := false, deleted := false }],
        head := 1, tail := 2 } ∧
    insert { nodes := [{ key := 0, next := 3, marked := false, deleted := false },
                       { key := 0, next := 0, marked := false, deleted := false },
                       { key := 5, next := 2, marked := false, deleted := false }],
             head := 1, tail := 2 } 5 = some
      ({ nodes := [{ key := 0, next := 3, marked := false, deleted := false },
                   { key := 0, next := 0, marked := false, deleted := false },
                   { key := 5, next := 2, marked := false, deleted := false },
                   { key := 5, next := 0, marked := false, deleted := false }],
         head := 1, tail := 2 }, false) ∧
    chainIds { nodes := [{ key := 0, next := 3, marked := false, deleted := false },
                         { key := 0, next := 0, marked := false, deleted := false },
                         { key := 5, next := 2, marked := false, deleted := false },
                         { key := 5, next := 0, marked := false, deleted := false }],
               head := 1, tail := 2 } = some [3] ∧
    (getNode { nodes := [{ key := 0, next := 3, marked := false, deleted := false },
                         { key := 0, next := 0, marked := false, deleted := false },
                         { key := 5, next := 2, marked := false, deleted := false },
                         { key := 5, next := 0, marked := false, deleted := false }],
               head := 1, tail := 2 } 4).deleted = false := by
  refine ⟨?_, ?_, ?_, rfl⟩ <;> decide

end LFL

/-! ## Facts about the tagged-pointer utilities -/

namespace Tagged

theorem mask_eq_shift : (2 ^ PTR_BITS - 2 ^ TAG_BITS : Nat) = (2 ^ 61 - 1) <<< 3 := by
  rw [Nat.shiftLeft_eq]
  norm_num [PTR_BITS, TAG_BITS]

theorem testBit_mask (i : Nat) :
    (2 ^ PTR_BITS - 2 ^ TAG_BITS : Nat).testBit i =
      (decide (3 ≤ i) && decide (i < 64)) := by
  rw [mask_eq_shift, Nat.testBit_shiftLeft, Nat.testBit_two_pow_sub_one]
  by_cases h3 : 3 ≤ i
  · have hiff : (i - 3 < 61) ↔ (i < 64) := by omega
    simp [h3, hiff]
  · simp [h3]

theorem testBit_lowmask (i : Nat) :
    (2 ^ TAG_BITS - 1 : Nat).testBit i = decide (i < 3) := by
  have h : (2 ^ TAG_BITS - 1 : Nat) = 2 ^ 3 - 1 := rfl
  rw [h, Nat.testBit_two_pow_sub_one]

theorem testBit_aligned {p : Nat} (h : 2 ^ TAG_BITS ∣ p) {i : Nat} (hi : i < 3) :
    p.testBit i = false := by
  obtain ⟨m, rfl⟩ := h
  have hsh : (2 ^ TAG_BITS * m) = m <<< 3 := by
    rw [Nat.shiftLeft_eq, Nat.mul_comm]
    rfl
  rw [hsh, Nat.testBit_shiftLeft]
  simp [show ¬ (3 ≤ i) by omega]

theorem testBit_big {p i : Nat} (hlt : p < 2 ^ PTR_BITS) (hi : 64 ≤ i) :
    p.testBit i = false := by
  refine Nat.testBit_lt_two_pow (lt_of_lt_of_le hlt ?_)
  have : (2 ^ PTR_BITS : Nat) = 2 ^ 64 := rfl
  rw [this]
  exact Nat.pow_le_pow_right (by norm_num) hi

/-- The tag of a packed word is the tag argument reduced mod `2^TAG_BITS`
(independent of the pointer). -/
theorem unpack_tag_pack (p t : Nat) :
    unpack_tag (pack_ptr_with_tag p t) = t % 2 ^ TAG_BITS := by
  apply Nat.eq_of_testBit_eq
  intro i
  simp only [unpack_tag, pack_ptr_with_tag, Nat.testBit_and, Nat.testBit_or,
    testBit_mask, testBit_lowmask, Nat.testBit_mod_two_pow]
  by_cases h3 : i < 3
  · simp [h3, show ¬ (3 ≤ i) by omega, show i < TAG_BITS from h3]
  · simp [h3, show ¬ (i < TAG_BITS) from h3]

/-- Unpacking the pointer from a packed word recovers the (aligned) address. -/
theorem unpack_pointer_pack {p : Nat} (t : Nat) (hal : 2 ^ TAG_BITS ∣ p)
    (hlt : p < 2 ^ PTR_BITS) :
    unpack_pointer (pack_ptr_with_tag p t) = p := by
  apply Nat.eq_of_testBit_eq
  intro i
  simp only [unpack_pointer, pack_ptr_with_tag, Nat.testBit_and, Nat.testBit_or,
    testBit_mask, testBit_lowmask]
  by_cases h3 : 3 ≤ i
  · by_cases h64 : i < 64
    · simp [h3, h64, show ¬ (i < 3) by omega]
    · simp [h64, testBit_big (i := i) hlt (by omega)]
  · simp [h3, testBit_aligned (i := i) hal (by omega)]

/-- Packing ignores the low bits of the address: the tag slot is cleared
before the tag is installed. -/
theorem pack_clears_low_bits (q t : Nat) :
    pack_ptr_with_tag q t = pack_ptr_with_tag (unpack_pointer q) t := by
  apply Nat.eq_of_testBit_eq
  intro i
  simp only [unpack_pointer, pack_ptr_with_tag, Nat.testBit_and, Nat.testBit_or,
    testBit_mask, testBit_lowmask]
  cases hq : q.testBit i <;> cases ht : t.testBit i <;> simp

/-- The cleared address is exactly the address with its low `TAG_BITS` bits
zeroed. -/
theorem unpack_pointer_eq_sub {q : Nat} (hlt : q < 2 ^ PTR_BITS) :
    unpack_pointer q = q - q % 2 ^ TAG_BITS := by
  have hsub : q - q % 2 ^ TAG_BITS = (q >>> 3) <<< 3 := by
    rw [Nat.shiftRight_eq_div_pow, Nat.shiftLeft_eq]
    have := Nat.mod_add_div q 8
    have h8 : (2 ^ TAG_BITS : Nat) = 8 := rfl
    rw [h8]
    omega
  rw [hsub]
  apply Nat.eq_of_testBit_eq
  intro i
  simp only [unpack_pointer, Nat.testBit_and, testBit_mask, Nat.testBit_shiftLeft,
    Nat.testBit_shiftRight]
  by_cases h3 : 3 ≤ i
  · by_cases h64 : i < 64
    · simp [h3, h64, show 3 + (i - 3) = i by omega]
    · simp [h64, testBit_big (i := i) hlt (by omega), show 3 + (i - 3) = i by omega]
  · simp [h3]

/-- C10: for every `2^TAG_BITS`-aligned 64-bit address `p` and every tag `t`,
`unpack_pointer (pack_ptr_with_tag p t) = p` and
`unpack_tag (pack_ptr_with_tag p t) = t mod 2^TAG_BITS`; `pack_ptr_with_tag`
always clears the low `TAG_BITS` bits of the address before installing the
tag. -/
theorem C10_pack_unpack_roundtrip (p t : Nat) (hal : 2 ^ TAG_BITS ∣ p)
    (hlt : p < 2 ^ PTR_BITS) :
    unpack_pointer (pack_ptr_with_tag p t) = p ∧
    unpack_tag (pack_ptr_with_tag p t) = t % 2 ^ TAG_BITS ∧
    (∀ q, pack_ptr_with_tag q t = pack_ptr_with_tag (unpack_pointer q) t) ∧
    (∀ q, q < 2 ^ PTR_BITS → unpack_pointer q = q - q % 2 ^ TAG_BITS) :=
  ⟨unpack_pointer_pack t hal hlt, unpack_tag_pack p t,
    fun q => pack_clears_low_bits q t, fun _ hq => unpack_pointer_eq_sub hq⟩

/-- C10 witness: address 16 (aligned to 8) with tag 11. -/
theorem C10_witness :
    (2 ^ TAG_BITS ∣ (16 : Nat)) ∧ ((16 : Nat) < 2 ^ PTR_BITS) ∧
    (unpack_pointer (pack_ptr_with_tag 16 11) = 16 ∧
     unpack_tag (pack_ptr_with_tag 16 11) = 11 % 2 ^ TAG_BITS ∧
     (∀ q, pack_ptr_with_tag q 11 = pack_ptr_with_tag (unpack_pointer q) 11) ∧
     (∀ q, q < 2 ^ PTR_BITS → unpack_pointer q = q - q % 2 ^ TAG_BITS)) :=
  ⟨by decide, by decide,
    C10_pack_unpack_roundtrip 16 11 (by decide) (by decide)⟩

/-- C9 (code behaviour): on the tagged-pointer variant, only the `search`
snip CAS stores a tag equal to the previous link tag plus one.  The `remove`
physical-unlink CAS stores the raw `right_node_next` snapshot (the
`desired_packed` value computed with the incremented tag is never used), and
the `insert` link-in CAS stores a value whose tag equals the tag of its
expected value, not that tag plus one.  Concrete run: link holds
`right_node = 16` (tag 0) with snapshot `right_node_next = 32` (tag 0); the
unlink CAS succeeds and stores tag 0, not 1.  Insert: `right_node = 24`,
`new_node = 40`; the CAS succeeds against link value 25 (tag 1) and stores 41
(tag 1), not tag 2. -/
theorem C9_link_cas_tags :
    (casLink 16 (removeCASArgs 16 32).1 (removeCASArgs 16 32).2 = (true, 32)) ∧
    unpack_tag 16 = 0 ∧ unpack_tag 32 = 0 ∧
    (unpack_tag 32 ≠ (unpack_tag 16 + 1) % 2 ^ TAG_BITS) ∧
    (remove_desired_packed 16 32 = 33) ∧
    (casLink 25 (insertCASArgs 24 40).1 (insertCASArgs 24 40).2 = (true, 41)) ∧
    unpack_tag 25 = 1 ∧ unpack_tag 41 = 1 ∧
    (unpack_tag 41 ≠ (unpack_tag 25 + 1) % 2 ^ TAG_BITS) ∧
    (∀ lnn tnp rn : Nat, unpack_tag (snipCASArgs lnn tnp rn).2 =
      (unpack_tag (snipCASArgs lnn tnp rn).1 + 1) % 2 ^ TAG_BITS) := by
  refine ⟨by decide, by decide, by decide, by decide, by decide,
    by decide, by decide, by decide, by decide, ?_⟩
  intro lnn tnp rn
  show unpack_tag (pack_ptr_with_tag rn
      (unpack_tag (pack_ptr_with_tag lnn (unpack_tag tnp)) + 1)) = _
  rw [unpack_tag_pack]
  rfl

end Tagged

/-! ## Facts about the hazard-pointer reclaimer -/

namespace HP

theorem scanPending_eq (recs : List HPRec) :
    ∀ l : List Nat, scanPending recs l =
      (l.filter fun n => is_protected recs n,
       l.filter fun n => !is_protected recs n) := by
  intro l
  induction l with
  | nil => rfl
  | cons n rest ih =>
    rw [scanPending, ih]
    by_cases hn : is_protected recs n
    · simp [hn, List.filter_cons]
    · simp [hn, List.filter_cons]

theorem retire_node_pending (recs : List HPRec) (st : RetireState) (ptr : Nat) :
    (retire_node recs st ptr).pending =
      (st.pending ++ [ptr]).filter fun n => is_protected recs n := by
  simp [retire_node, scanPending_eq]

theorem retire_node_freed (recs : List HPRec) (st : RetireState) (ptr : Nat) :
    (retire_node recs st ptr).freed =
      st.freed ++ ((st.pending ++ [ptr]).filter fun n => !is_protected recs n) := by
  simp [retire_node, scanPending_eq]

theorem retire_node_deletedSet (recs : List HPRec) (st : RetireState) (ptr : Nat) :
    (retire_node recs st ptr).deletedSet =
      st.deletedSet ++ ((st.pending ++ [ptr]).filter fun n => !is_protected recs n) := by
  simp [retire_node, scanPending_eq]

/-- Across a whole sequence of retirements, the freed and pending lists
together are a permutation of everything ever retired. -/
theorem runRetires_perm (recs : List HPRec) :
    ∀ (ptrs : List Nat) (st : RetireState),
      ((runRetires recs st ptrs).freed ++ (runRetires recs st ptrs).pending).Perm
        (st.freed ++ st.pending ++ ptrs) := by
  intro ptrs
  induction ptrs with
  | nil => intro st; simp [runRetires]
  | cons p ps ih =>
    intro st
    rw [runRetires]
    refine (ih (retire_node recs st p)).trans ?_
    rw [retire_node_freed, retire_node_pending]
    have hperm : (((st.pending ++ [p]).filter fun n => !is_protected recs n) ++
        ((st.pending ++ [p]).filter fun n => is_protected recs n)).Perm
        (st.pending ++ [p]) :=
      List.perm_append_comm.trans
        (List.filter_append_perm (fun n => is_protected recs n) (st.pending ++ [p]))
    have e1 : (st.freed ++ ((st.pending ++ [p]).filter fun n => !is_protected recs n)) ++
        ((st.pending ++ [p]).filter fun n => is_protected recs n) ++ ps =
        st.freed ++ ((((st.pending ++ [p]).filter fun n => !is_protected recs n) ++
          ((st.pending ++ [p]).filter fun n => is_protected recs n)) ++ ps) := by
      simp [List.append_assoc]
    have e2 : st.freed ++ ((st.pending ++ [p]) ++ ps) =
        st.freed ++ st.pending ++ (p :: ps) := by
      simp [List.append_assoc]
    rw [e1, ← e2]
    exact List.Perm.append_left st.freed (List.Perm.append_right ps hperm)

/-- C6: `retire` appends the pointer to the caller's pending list and never
fails; a scan frees exactly the pending nodes that `is_protected` reports
unprotected, sets their `deleted` flag as it frees them, keeps the protected
ones pending, and - provided each address is retired at most once - never
passes an address to the deallocator twice. -/
theorem C6_retire_scan (recs : List HPRec) (st : RetireState) (ptr : Nat)
    (ptrs : List Nat) (hnd : ptrs.Nodup) :
    ((retire_node recs st ptr).pending =
      (st.pending ++ [ptr]).filter fun n => is_protected recs n) ∧
    ((retire_node recs st ptr).freed =
      st.freed ++ ((st.pending ++ [ptr]).filter fun n => !is_protected recs n)) ∧
    (∀ a ∈ (st.pending ++ [ptr]).filter fun n => !is_protected recs n,
      is_protected recs a = false) ∧
    (∀ a ∈ (st.pending ++ [ptr]).filter fun n => !is_protected recs n,
      a ∈ (retire_node recs st ptr).deletedSet) ∧
    (∀ a ∈ st.pending ++ [ptr], is_protected recs a = true →
      a ∈ (retire_node recs st ptr).pending) ∧
    (runRetires recs ⟨[], [], []⟩ ptrs).freed.Nodup := by
  refine ⟨retire_node_pending recs st ptr, retire_node_freed recs st ptr, ?_, ?_, ?_, ?_⟩
  · intro a ha
    have := List.of_mem_filter ha
    simpa using this
  · intro a ha
    rw [retire_node_deletedSet]
    exact List.mem_append.mpr (Or.inr ha)
  · intro a ha hprot
    rw [retire_node_pending]
    exact List.mem_filter.mpr ⟨ha, hprot⟩
  · have hperm := runRetires_perm recs ptrs ⟨[], [], []⟩
    simp only [List.nil_append] at hperm
    have hnd2 : ((runRetires recs ⟨[], [], []⟩ ptrs).freed ++
        (runRetires recs ⟨[], [], []⟩ ptrs).pending).Nodup :=
      (hperm.symm).nodup hnd
    exact hnd2.of_append_left

/-- C6 witness: one retirement with a concrete registry (address 42
protected, addresses 5 and 9 unprotected). -/
theorem C6_witness :
    ([1, 2, 3] : List Nat).Nodup ∧
    ((retire_node [⟨some 1, [some 42, none]⟩] ⟨[5, 42], [], []⟩ 9).pending =
      ([5, 42] ++ [9]).filter fun n => is_protected [⟨some 1, [some 42, none]⟩] n) :=
  ⟨by decide, (C6_retire_scan [⟨some 1, [some 42, none]⟩] ⟨[5, 42], [], []⟩ 9
    [1, 2, 3] (by decide)).1⟩

/-! ## Facts about `acquire_hp_rec` -/

theorem acquire_full {tid : Nat} :
    ∀ regs : List HPRec, (∀ r ∈ regs, r.tid ≠ none ∧ r.tid ≠ some tid) →
      acquire_hp_rec tid regs = none := by
  intro regs
  induction regs with
  | nil => intro _; rfl
  | cons r rs ih =>
    intro hall
    obtain ⟨h1, h2⟩ := hall r (by simp)
    rw [acquire_hp_rec, if_neg h1, if_neg h2, ih fun x hx => hall x (by simp [hx])]
    rfl

theorem acquire_fresh {tid : Nat} (hp0 : List (Option Nat)) :
    ∀ (owners : List Nat) (m : Nat), tid ∉ owners → 1 ≤ m →
      acquire_hp_rec tid
          ((owners.map fun t => ⟨some t, hp0⟩) ++ List.replicate m ⟨none, hp0⟩) =
        some (owners.length,
          (owners.map fun t => ⟨some t, hp0⟩) ++
            ⟨some tid, hp0⟩ :: List.replicate (m - 1) ⟨none, hp0⟩) := by
  intro owners
  induction owners with
  | nil =>
    intro m _ hm
    obtain ⟨m', rfl⟩ : ∃ m', m = m' + 1 := ⟨m - 1, by omega⟩
    rw [List.replicate_succ]
    simp [acquire_hp_rec]
  | cons t ts ih =>
    intro m htid hm
    have hne : t ≠ tid := fun hc => htid (by simp [hc])
    rw [List.map_cons, List.cons_append, acquire_hp_rec]
    rw [if_neg (by simp), if_neg (by simp [hne])]
    rw [ih m (fun hc => htid (by simp [hc])) hm]
    simp

theorem acquire_owned {tid : Nat} (hp0 : List (Option Nat)) :
    ∀ (owners : List Nat) (m : Nat), tid ∈ owners →
      acquire_hp_rec tid
          ((owners.map fun t => ⟨some t, hp0⟩) ++ List.replicate m ⟨none, hp0⟩) =
        some (owners.indexOf tid,
          (owners.map fun t => ⟨some t, hp0⟩) ++ List.replicate m ⟨none, hp0⟩) := by
  intro owners
  induction owners with
  | nil => intro m hc; exact absurd hc (by simp)
  | cons t ts ih =>
    intro m htid
    by_cases hte : t = tid
    · subst hte
      rw [List.map_cons, List.cons_append, acquire_hp_rec]
      rw [if_neg (by simp), if_pos rfl]
      rw [List.indexOf_cons_self]
    · have hts : tid ∈ ts := by
        rcases List.mem_cons.mp htid with hc | hc
        · exact absurd hc.symm hte
        · exact hc
      rw [List.map_cons, List.cons_append, acquire_hp_rec]
      rw [if_neg (by simp), if_neg (by simp [hte])]
      rw [ih m hts]
      rw [List.indexOf_cons_ne _ hte]
      rfl

theorem acquire_reacquire {tid : Nat} :
    ∀ (regs regs' : List HPRec) (i : Nat),
      acquire_hp_rec tid regs = some (i, regs') →
      acquire_hp_rec tid regs' = some (i, regs') := by
  intro regs
  induction regs with
  | nil =>
    intro regs' i h
    exact absurd h (by simp [acquire_hp_rec])
  | cons r rs ih =>
    intro regs' i h
    rw [acquire_hp_rec] at h
    by_cases h1 : r.tid = none
    · rw [if_pos h1] at h
      have h0 := Option.some.inj h
      have hi : (0 : Nat) = i := congrArg Prod.fst h0
      have hregs : ({ r with tid := some tid } :: rs) = regs' := congrArg Prod.snd h0
      subst hi
      rw [← hregs, acquire_hp_rec, if_neg (by simp), if_pos (by simp)]
    · rw [if_neg h1] at h
      by_cases h2 : r.tid = some tid
      · rw [if_pos h2] at h
        have h0 := Option.some.inj h
        have hi : (0 : Nat) = i := congrArg Prod.fst h0
        have hregs : (r :: rs) = regs' := congrArg Prod.snd h0
        subst hi
        rw [← hregs, acquire_hp_rec, if_neg h1, if_pos h2]
      · rw [if_neg h2] at h
        cases hrec : acquire_hp_rec tid rs with
        | none => rw [hrec] at h; exact absurd h (by simp)
        | some q =>
          obtain ⟨j, rs2⟩ := q
          rw [hrec] at h
          simp only [Option.map_some'] at h
          have h0 := Option.some.inj h
          have hi : j + 1 = i := congrArg Prod.fst h0
          have hregs : (r :: rs2) = regs' := congrArg Prod.snd h0
          subst hi
          rw [← hregs, acquire_hp_rec, if_neg h1, if_neg h2, ih rs2 j hrec]
          rfl

/-- C8: when every record of the registry is owned by another thread, the
claim throws (a fatal configuration error); when the number of owners is
below the capacity an unregistered thread claims the first free record, a
registered thread always gets back exactly its own record, and reacquisition
returns the same record and leaves the registry unchanged. -/
theorem C8_acquire_hp_rec (tid : Nat) (hp0 : List (Option Nat)) :
    (∀ regs : List HPRec, (∀ r ∈ regs, r.tid ≠ none ∧ r.tid ≠ some tid) →
      acquire_hp_rec tid regs = none) ∧
    (∀ (owners : List Nat) (m : Nat), tid ∉ owners → 1 ≤ m →
      acquire_hp_rec tid
          ((owners.map fun t => ⟨some t, hp0⟩) ++ List.replicate m ⟨none, hp0⟩) =
        some (owners.length,
          (owners.map fun t => ⟨some t, hp0⟩) ++
            ⟨some tid, hp0⟩ :: List.replicate (m - 1) ⟨none, hp0⟩)) ∧
    (∀ (owners : List Nat) (m : Nat), tid ∈ owners →
      acquire_hp_rec tid
          ((owners.map fun t => ⟨some t, hp0⟩) ++ List.replicate m ⟨none, hp0⟩) =
        some (owners.indexOf tid,
          (owners.map fun t => ⟨some t, hp0⟩) ++ List.replicate m ⟨none, hp0⟩)) ∧
    (∀ (regs regs' : List HPRec) (i : Nat),
      acquire_hp_rec tid regs = some (i, regs') →
      acquire_hp_rec tid regs' = some (i, regs')) :=
  ⟨acquire_full, acquire_fresh hp0, acquire_owned hp0,
    fun regs regs' i => acquire_reacquire regs regs' i⟩

/-- C8 witness: thread 7 claims the first free record of a two-record
registry whose first record is owned by thread 1, and a full registry of
foreign owners rejects the claim. -/
theorem C8_witness :
    ((7 : Nat) ∉ ([1] : List Nat)) ∧ (1 ≤ (1 : Nat)) ∧
    acquire_hp_rec 7 (([1].map fun t => ⟨some t, ([] : List (Option Nat))⟩) ++
        List.replicate 1 ⟨none, []⟩) =
      some (([1] : List Nat).length,
        (([1] : List Nat).map fun t => ⟨some t, ([] : List (Option Nat))⟩) ++
          ⟨some 7, []⟩ :: List.replicate 0 ⟨none, []⟩) :=
  ⟨by decide, le_refl 1,
    (C8_acquire_hp_rec 7 []).2.1 [1] 1 (by decide) (le_refl 1)⟩

end HP
